import Mathlib

/-!
Verification development for the debt-freedom planner's payoff calculation
core (`debtCalculator`).  The JavaScript number type is modelled by `ℚ`;
`Math.round (x * 100) / 100` becomes `round2` below, using the fact that
`Math.round x = ⌊x + 1/2⌋` for every real argument.  JavaScript objects used
as id-keyed dictionaries (`currentBalances`, `extraPayments`,
`payoffDatePerDebt`) are modelled as association lists in insertion order,
which matches the iteration order of `Object.keys` for the string (UUID)
keys the program uses.  `Array.prototype.sort`, stable per the ECMAScript
specification, is modelled by `List.mergeSort`, Lean's stable sort.
-/

namespace DebtPlanner

/-- Rounding to 2 decimal places: `Math.round(num * 100) / 100`. -/
def round2 (num : ℚ) : ℚ := ((⌊num * 100 + 1 / 2⌋ : ℤ) : ℚ) / 100

/-- A quantity with at most two decimal places (an integer number of cents). -/
def TwoDp (q : ℚ) : Prop := ∃ k : ℤ, q = (k : ℚ) / 100

/-- The `Debt` record from `types/debt`.  Ids are opaque strings. -/
structure Debt where
  id : String
  name : String
  balance : ℚ
  apr : ℚ
  minPayment : ℚ
  customRank : Option Int
  active : Bool
deriving DecidableEq

/-- The `Strategy` union type. -/
inductive Strategy where
  | SNOWBALL_LOWEST_BALANCE
  | AVALANCHE_HIGHEST_APR
  | ORDER_ENTERED
  | NO_SNOWBALL
  | CUSTOM_HIGHEST_FIRST
  | CUSTOM_LOWEST_FIRST
deriving DecidableEq

/-- `calculateMonthlyInterest`: `round2(balance * apr / 12)`. -/
def calculateMonthlyInterest (balance apr : ℚ) : ℚ :=
  round2 (balance * apr / 12)

/-- `Number.MAX_SAFE_INTEGER`. -/
def maxSafeInteger : Int := 2 ^ 53 - 1

/-- The rank used by the custom strategies: `d.customRank ?? Number.MAX_SAFE_INTEGER`. -/
def rankOf (d : Debt) : Int := d.customRank.getD maxSafeInteger

/-- The filter `d.active && d.balance > 0` applied throughout the module. -/
def isActiveDebt (d : Debt) : Bool := d.active && decide (0 < d.balance)

/-- `getPayoffOrder`: filter to active debts with positive balance, then sort
per strategy.  A JavaScript stable sort with comparator `c` keeps `a` before
`b` exactly when `c a b ≤ 0`; each comparator below is rendered as the
corresponding boolean `le` relation for `mergeSort`. -/
def getPayoffOrder (debts : List Debt) (strategy : Strategy) : List Debt :=
  let activeDebts := debts.filter isActiveDebt
  match strategy with
  | .SNOWBALL_LOWEST_BALANCE =>
      activeDebts.mergeSort (fun a b => decide (a.balance ≤ b.balance))
  | .AVALANCHE_HIGHEST_APR =>
      activeDebts.mergeSort (fun a b => decide (b.apr ≤ a.apr))
  | .ORDER_ENTERED => activeDebts
  | .NO_SNOWBALL => activeDebts
  | .CUSTOM_HIGHEST_FIRST =>
      activeDebts.mergeSort (fun a b => decide (rankOf b ≤ rankOf a))
  | .CUSTOM_LOWEST_FIRST =>
      activeDebts.mergeSort (fun a b => decide (rankOf a ≤ rankOf b))

/-- `calculateInitialSnowball`. -/
def calculateInitialSnowball (monthlyBudget : ℚ) (debts : List Debt) : ℚ :=
  let sumMinPayments := (debts.filter isActiveDebt).foldl (fun sum d => sum + d.minPayment) 0
  round2 (monthlyBudget - sumMinPayments)

/-- Calendar dates, for `date-fns`'s `addMonths` and `format(_, 'yyyy-MM-dd')`. -/
structure Date where
  year : Int
  month : Nat
  day : Nat
deriving DecidableEq

def isLeapYear (y : Int) : Bool := y % 4 == 0 && (y % 100 != 0 || y % 400 == 0)

def daysInMonth (y : Int) (m : Nat) : Nat :=
  if m = 2 then (if isLeapYear y then 29 else 28)
  else if m = 4 ∨ m = 6 ∨ m = 9 ∨ m = 11 then 30
  else 31

/-- `date-fns` `addMonths`: advance the month, clamping the day of month to
the length of the target month. -/
def addMonths (d : Date) (n : Nat) : Date :=
  let total : Nat := (d.month - 1) + n
  let y : Int := d.year + ((total / 12 : Nat) : Int)
  let m : Nat := total % 12 + 1
  { year := y, month := m, day := min d.day (daysInMonth y m) }

def padNat (len n : Nat) : String :=
  let s := toString n
  if s.length < len then String.mk (List.replicate (len - s.length) '0') ++ s else s

/-- `format(date, 'yyyy-MM-dd')` (for the common-era dates the app uses). -/
def formatDate (d : Date) : String :=
  padNat 4 d.year.toNat ++ "-" ++ padNat 2 d.month ++ "-" ++ padNat 2 d.day

/-- Association-list lookup, first entry wins (a JS object has unique keys). -/
def alookup {α : Type} (m : List (String × α)) (id : String) : Option α :=
  (m.find? (fun p => p.1 == id)).map Prod.snd

/-- `currentBalances[id]`; a missing key compares as `0` in `> 0` tests. -/
def lookupBal (m : List (String × ℚ)) (id : String) : ℚ :=
  (alookup m id).getD 0

/-- JS object assignment `m[id] = v`: overwrite an existing key, else append. -/
def insertEntry {α : Type} (m : List (String × α)) (id : String) (v : α) :
    List (String × α) :=
  if m.any (fun p => p.1 == id) then
    m.map (fun p => if p.1 == id then (p.1, v) else p)
  else m ++ [(id, v)]

/-- `debts.find(d => d.id === id)!`; the program only calls this for ids that
come from the debts list itself, so the default is never observed. -/
def findDebt (debts : List Debt) (id : String) : Debt :=
  (debts.find? (fun d => d.id == id)).getD ⟨id, "", 0, 0, 0, none, false⟩

structure MonthlyDebtDetail where
  debtId : String
  debtName : String
  startingBalance : ℚ
  interest : ℚ
  payment : ℚ
  endingBalance : ℚ
deriving DecidableEq

structure MonthlyScheduleRow where
  monthNumber : Nat
  date : String
  totalPayment : ℚ
  baselinePayment : ℚ
  snowballExtra : ℚ
  debtDetails : List MonthlyDebtDetail
  totalRemainingBalance : ℚ
deriving DecidableEq

structure CalculationResult where
  schedule : List MonthlyScheduleRow
  totalInterestPaid : ℚ
  monthsToPayoff : Nat
  payoffDate : String
  payoffDatePerDebt : List (String × String)
  payoffOrder : List String
deriving DecidableEq

/-- The mutable simulation state threaded through the `while` loop. -/
structure SimState where
  balances : List (String × ℚ)
  totalInterestPaid : ℚ
  payoffDatePerDebt : List (String × String)
deriving DecidableEq

/-- The ids with positive working balance, in insertion order:
`Object.keys(currentBalances).filter(id => currentBalances[id] > 0)`. -/
def activeIdsOf (balances : List (String × ℚ)) : List String :=
  (balances.filter (fun p => decide (0 < p.2))).map Prod.fst

/-- The per-invocation constants of the simulation loop's body. -/
structure MonthCtx where
  debts : List Debt
  strategy : Strategy
  monthlyBudget : ℚ
  payoffOrderIds : List String

/-- Step 1 of the month, per debt: `interest = calculateMonthlyInterest(currentBalances[id], debt.apr)`,
computed from the balance before accrual. -/
def interestOf (c : MonthCtx) (bals : List (String × ℚ)) (id : String) : ℚ :=
  calculateMonthlyInterest (lookupBal bals id) (findDebt c.debts id).apr

/-- Step 1 of the month, the updated map:
`currentBalances[id] = round2(currentBalances[id] + interest)` for each active
id.  Each `forEach` iteration touches only the visited id's own entry, so the
loop is a pointwise map over the entries. -/
def balsAfter (c : MonthCtx) (bals : List (String × ℚ)) : List (String × ℚ) :=
  bals.map (fun p => if 0 < p.2 then (p.1, round2 (p.2 + interestOf c bals p.1)) else p)

/-- Step 2, per debt: `baselinePayments[id] = round2(min(debt.minPayment, currentBalances[id]))`. -/
def baselineOf (c : MonthCtx) (bals : List (String × ℚ)) (id : String) : ℚ :=
  round2 (min (findDebt c.debts id).minPayment (lookupBal (balsAfter c bals) id))

/-- Step 2, the accumulator: `totalBaseline = round2(totalBaseline + payment)`
over the active ids in insertion order, with the un-rounded `payment`. -/
def totalBaselineOf (c : MonthCtx) (bals : List (String × ℚ)) : ℚ :=
  (activeIdsOf bals).foldl
    (fun acc id =>
      round2 (acc + min (findDebt c.debts id).minPayment (lookupBal (balsAfter c bals) id)))
    0

/-- Step 3: `extraPool = strategy === 'NO_SNOWBALL' ? 0 : round2(monthlyBudget - totalBaseline)`. -/
def extraPool0Of (c : MonthCtx) (bals : List (String × ℚ)) : ℚ :=
  if c.strategy = Strategy.NO_SNOWBALL then 0
  else round2 (c.monthlyBudget - totalBaselineOf c bals)

/-- Step 4: walk the payoff order restricted to currently-active ids,
assigning `extraPayments[targetId]` and draining the pool, with the early
`break` on an exhausted pool rendered as a skipping fold. -/
def allocOf (c : MonthCtx) (bals : List (String × ℚ)) : List (String × ℚ) × ℚ :=
  let extraInit : List (String × ℚ) := (activeIdsOf bals).map (fun id => (id, (0 : ℚ)))
  let pool := extraPool0Of c bals
  if 0 < pool ∧ c.strategy ≠ Strategy.NO_SNOWBALL then
    (c.payoffOrderIds.filter (fun id => decide (0 < lookupBal (balsAfter c bals) id))).foldl
      (fun acc targetId =>
        if acc.2 ≤ 0 then acc
        else
          let maxExtra := round2 (lookupBal (balsAfter c bals) targetId - baselineOf c bals targetId)
          if 0 < maxExtra then
            let extraForTarget := round2 (min acc.2 maxExtra)
            (insertEntry acc.1 targetId extraForTarget, round2 (acc.2 - extraForTarget))
          else acc)
      (extraInit, pool)
  else (extraInit, pool)

/-- `extraPayments[id]` after step 4. -/
def extraOf (c : MonthCtx) (bals : List (String × ℚ)) (id : String) : ℚ :=
  (alookup (allocOf c bals).1 id).getD 0

/-- Step 5: `totalPayment = round2(baselinePayments[id] + extraPayments[id])`. -/
def paymentOf (c : MonthCtx) (bals : List (String × ℚ)) (id : String) : ℚ :=
  round2 (baselineOf c bals id + extraOf c bals id)

/-- Step 5: `currentBalances[id] = round2(max(0, currentBalances[id] - totalPayment))`. -/
def endingOf (c : MonthCtx) (bals : List (String × ℚ)) (id : String) : ℚ :=
  round2 (max 0 (lookupBal (balsAfter c bals) id - paymentOf c bals id))

/-- The `MonthlyDebtDetail` record pushed in step 5 for one active id. -/
def detailOf (c : MonthCtx) (bals : List (String × ℚ)) (id : String) : MonthlyDebtDetail :=
  { debtId := id
    debtName := (findDebt c.debts id).name
    startingBalance := round2 (lookupBal (balsAfter c bals) id - interestOf c bals id)
    interest := interestOf c bals id
    payment := paymentOf c bals id
    endingBalance := endingOf c bals id }

/-- One iteration of the simulation's `while` loop (steps 1-5 of a month).
The running accumulators are folds over the active ids in insertion order,
updated with `round2` at every step exactly as the JS loop does. -/
def stepMonth (c : MonthCtx) (dateStr : String) (monthNumber : Nat)
    (st : SimState) : SimState × MonthlyScheduleRow :=
  let activeIds := activeIdsOf st.balances
  let newBalances : List (String × ℚ) :=
    st.balances.map (fun p => if 0 < p.2 then (p.1, endingOf c st.balances p.1) else p)
  let payoffDates :=
    activeIds.foldl
      (fun acc id =>
        if endingOf c st.balances id = 0 ∧ alookup acc id = none then acc ++ [(id, dateStr)]
        else acc)
      st.payoffDatePerDebt
  (⟨newBalances,
    activeIds.foldl (fun acc id => round2 (acc + interestOf c st.balances id)) st.totalInterestPaid,
    payoffDates⟩,
   { monthNumber := monthNumber
     date := dateStr
     totalPayment := activeIds.foldl (fun acc id => round2 (acc + paymentOf c st.balances id)) 0
     baselinePayment := totalBaselineOf c st.balances
     snowballExtra := activeIds.foldl (fun acc id => round2 (acc + extraOf c st.balances id)) 0
     debtDetails := activeIds.map (detailOf c st.balances)
     totalRemainingBalance :=
       activeIds.foldl (fun acc id => round2 (acc + endingOf c st.balances id)) 0 })

/-- The `while (monthNumber < MAX_MONTHS)` loop, structured on remaining fuel.
Returns the rows produced, the final state, and the final `monthNumber`. -/
def simLoop (c : MonthCtx) (balanceDate : Date) :
    Nat → Nat → SimState → List MonthlyScheduleRow × SimState × Nat
  | 0, monthNumber, st => ([], st, monthNumber)
  | Nat.succ fuel, monthNumber, st =>
    if (activeIdsOf st.balances).isEmpty then ([], st, monthNumber)
    else
      let mn := monthNumber + 1
      let step := stepMonth c (formatDate (addMonths balanceDate mn)) mn st
      let rest := simLoop c balanceDate fuel mn step.1
      (step.2 :: rest.1, rest.2)

def MAX_MONTHS : Nat := 480

/-- Clone the active debts' balances into the working map, in input order:
`activeDebts.forEach(d => { currentBalances[d.id] = d.balance })`. -/
def initialBalances (debts : List Debt) : List (String × ℚ) :=
  (debts.filter isActiveDebt).foldl (fun m d => insertEntry m d.id d.balance) []

/-- `calculatePayoffSchedule`, the main calculation engine.  The schedule's
`payoffDate` renders `lastMonth?.date || format(balanceDate, 'yyyy-MM-dd')`;
the `||` fallback fires exactly when the schedule is empty, since a formatted
date is never the empty string. -/
def calculatePayoffSchedule (debts : List Debt) (strategy : Strategy)
    (monthlyBudget : ℚ) (balanceDate : Date) : CalculationResult :=
  let payoffOrderIds := (getPayoffOrder debts strategy).map (·.id)
  let res := simLoop ⟨debts, strategy, monthlyBudget, payoffOrderIds⟩ balanceDate
    MAX_MONTHS 0 ⟨initialBalances debts, 0, []⟩
  { schedule := res.1
    totalInterestPaid := res.2.1.totalInterestPaid
    monthsToPayoff := res.2.2
    payoffDate := ((res.1.getLast?).map (·.date)).getD (formatDate balanceDate)
    payoffDatePerDebt := res.2.1.payoffDatePerDebt
    payoffOrder := payoffOrderIds }

/-- The inner simulation run of `calculatePayoffSchedule`. -/
def simRes (debts : List Debt) (strategy : Strategy) (monthlyBudget : ℚ)
    (balanceDate : Date) : List MonthlyScheduleRow × SimState × Nat :=
  simLoop ⟨debts, strategy, monthlyBudget, (getPayoffOrder debts strategy).map (·.id)⟩
    balanceDate MAX_MONTHS 0 ⟨initialBalances debts, 0, []⟩

/-- Renders a nonnegative amount with two decimal places, as
`Math.abs(x).toFixed(2)` does for the two-decimal amounts the validator
produces. -/
def toFixed2 (q : ℚ) : String :=
  let n : Int := ⌊q * 100 + 1 / 2⌋
  toString (n / 100) ++ "." ++ padNat 2 (n % 100).toNat

structure BudgetValidation where
  valid : Bool
  message : Option String
  initialSnowball : ℚ
deriving DecidableEq

/-- `validateMonthlyBudget`. -/
def validateMonthlyBudget (monthlyBudget : ℚ) (debts : List Debt) : BudgetValidation :=
  let sumMinPayments :=
    (debts.filter isActiveDebt).foldl (fun sum d => sum + d.minPayment) 0
  let initialSnowball := round2 (monthlyBudget - sumMinPayments)
  if initialSnowball < 0 then
    { valid := false
      message := some ("Need to increase monthly payment by $" ++ toFixed2 |initialSnowball| ++
        " to cover minimum payments.")
      initialSnowball := initialSnowball }
  else
    { valid := true, message := none, initialSnowball := initialSnowball }

/-- `checkInterestOnlyRisk`. -/
def checkInterestOnlyRisk (debt : Debt) : Bool :=
  let monthlyInterest := calculateMonthlyInterest debt.balance debt.apr
  decide (debt.minPayment < monthlyInterest)

/-- Keys of an association list. -/
def keysOf {α : Type} (m : List (String × α)) : List String := m.map Prod.fst

/-- A list of debts in which no debt lacking a `customRank` appears before a
debt having one: every unranked debt is placed after all ranked debts. -/
def rankedBeforeUnranked (l : List Debt) : Prop :=
  l.Pairwise (fun a b => ¬(a.customRank = none ∧ b.customRank ≠ none))

/-- A list of debts in which no debt having a `customRank` appears before a
debt lacking one: every unranked debt is placed before all ranked debts. -/
def unrankedBeforeRanked (l : List Debt) : Prop :=
  l.Pairwise (fun a b => ¬(a.customRank ≠ none ∧ b.customRank = none))

/-- The inductive invariant for the covered-interest case: every entry with a
positive working balance has a two-decimal balance, a nonnegative APR, and a
minimum payment at least the rounded monthly interest on that balance. -/
def CoversInv (c : MonthCtx) (bals : List (String × ℚ)) : Prop :=
  ∀ p ∈ bals, 0 < p.2 →
    TwoDp p.2 ∧ 0 ≤ (findDebt c.debts p.1).apr ∧
      round2 (p.2 * (findDebt c.debts p.1).apr / 12) ≤ (findDebt c.debts p.1).minPayment

/-- One month of a debt's balance under minimum-only payment and no extra
allocation, exactly as the simulation computes it for an active debt under
`NO_SNOWBALL` (interest accrual, baseline capped at the balance, rounding at
every step). -/
def minOnlyStep (apr mp b : ℚ) : ℚ :=
  let interest := round2 (b * apr / 12)
  let balAfter := round2 (b + interest)
  let baseline := round2 (min mp balAfter)
  round2 (max 0 (balAfter - baseline))

/-- The minimum-only trajectory of one debt's balance across months: frozen
once non-positive, otherwise stepped by `minOnlyStep`. -/
def minOnlyTraj (apr mp : ℚ) : ℚ → Nat → ℚ
  | b, 0 => b
  | b, m + 1 => minOnlyTraj apr mp (if 0 < b then minOnlyStep apr mp b else b) m

/-- The first month (1-based) within the given horizon at which the
minimum-only trajectory reaches 0, if any. -/
def firstPayoffMonth (apr mp b : ℚ) (months : Nat) : Option Nat :=
  (List.range' 1 months).find? (fun k => decide (minOnlyTraj apr mp b k = 0))

/-! Concrete inputs used by scenarios, counterexamples and witnesses. -/

def sampleDate : Date := ⟨2024, 1, 15⟩

def debtA : Debt := ⟨"A", "Debt A", 100, 0, 50, none, true⟩

def debtB : Debt := ⟨"B", "Debt B", 500, 0, 25, none, true⟩

def debtRanked : Debt := ⟨"r", "Ranked", 1, 0, 0, some 5, true⟩

def debtUnranked : Debt := ⟨"u", "Unranked", 1, 0, 0, none, true⟩

def debtGrowing : Debt := ⟨"c", "Growing", 12.0576, 1, 1, none, true⟩

def debtTinyMin : Debt := ⟨"x", "Tiny", 10, 0, 1 / 200, none, true⟩

def debtSimple : Debt := ⟨"w", "Simple", 10, 0, 10, none, true⟩

def debtRisky : Debt := ⟨"d", "Risky", 10000, 0.24, 150, none, true⟩

/-! ### Arithmetic facts about `round2` and two-decimal quantities -/

theorem twoDp_round2 (q : ℚ) : TwoDp (round2 q) := ⟨⌊q * 100 + 1 / 2⌋, rfl⟩

theorem TwoDp.round2_eq {q : ℚ} (h : TwoDp q) : round2 q = q := by
  obtain ⟨k, rfl⟩ := h
  unfold round2
  rw [div_mul_cancel₀ _ (by norm_num : (100 : ℚ) ≠ 0), Int.floor_int_add,
    show ⌊(1 : ℚ) / 2⌋ = 0 by norm_num, add_zero]

theorem round2_mono {p q : ℚ} (h : p ≤ q) : round2 p ≤ round2 q := by
  unfold round2
  have : (⌊p * 100 + 1 / 2⌋ : ℚ) ≤ (⌊q * 100 + 1 / 2⌋ : ℚ) := by
    exact_mod_cast Int.floor_mono (by linarith)
  linarith

theorem round2_zero : round2 0 = 0 := TwoDp.round2_eq ⟨0, by norm_num⟩

theorem round2_nonneg {q : ℚ} (h : 0 ≤ q) : 0 ≤ round2 q := by
  have := round2_mono h
  rwa [round2_zero] at this

theorem TwoDp.zero : TwoDp 0 := ⟨0, by norm_num⟩

theorem TwoDp.add {p q : ℚ} (hp : TwoDp p) (hq : TwoDp q) : TwoDp (p + q) := by
  obtain ⟨k, rfl⟩ := hp; obtain ⟨l, rfl⟩ := hq
  exact ⟨k + l, by push_cast; ring⟩

theorem TwoDp.neg {p : ℚ} (hp : TwoDp p) : TwoDp (-p) := by
  obtain ⟨k, rfl⟩ := hp
  exact ⟨-k, by push_cast; ring⟩

theorem TwoDp.sub {p q : ℚ} (hp : TwoDp p) (hq : TwoDp q) : TwoDp (p - q) := by
  rw [sub_eq_add_neg]; exact hp.add hq.neg

theorem TwoDp.min {p q : ℚ} (hp : TwoDp p) (hq : TwoDp q) : TwoDp (p ⊓ q) := by
  rcases le_total p q with h | h
  · rwa [min_eq_left h]
  · rwa [min_eq_right h]

theorem TwoDp.max {p q : ℚ} (hp : TwoDp p) (hq : TwoDp q) : TwoDp (p ⊔ q) := by
  rcases le_total p q with h | h
  · rwa [max_eq_right h]
  · rwa [max_eq_left h]

theorem twoDp_sum {l : List ℚ} (h : ∀ x ∈ l, TwoDp x) : TwoDp l.sum := by
  induction l with
  | nil => exact TwoDp.zero
  | cons x xs ih =>
    rw [List.sum_cons]
    exact (h x (List.mem_cons_self x xs)).add (ih fun y hy => h y (List.mem_cons_of_mem x hy))

/-- A running total updated as `acc = round2(acc + x)` over two-decimal
summands is just the exact sum. -/
theorem foldl_round2_add_eq_sum {l : List ℚ} (a : ℚ) (ha : TwoDp a)
    (hl : ∀ x ∈ l, TwoDp x) :
    l.foldl (fun acc x => round2 (acc + x)) a = a + l.sum := by
  induction l generalizing a with
  | nil => simp
  | cons x xs ih =>
    have hx : TwoDp x := hl x (List.mem_cons_self x xs)
    have hax : TwoDp (a + x) := ha.add hx
    simp only [List.foldl_cons, List.sum_cons]
    rw [hax.round2_eq, ih (a + x) hax (fun y hy => hl y (List.mem_cons_of_mem x hy))]
    ring

/-! ### Association-list lemmas -/

/-- In a list with pairwise-distinct keys, `find?` on a member's key finds
exactly that member. -/
theorem find?_keyed_eq {α : Type} (key : α → String) {l : List α}
    (h : (l.map key).Nodup) {a : α} (ha : a ∈ l) :
    l.find? (fun x => key x == key a) = some a := by
  induction l with
  | nil => cases ha
  | cons b bs ih =>
    rw [List.map_cons, List.nodup_cons] at h
    rcases List.mem_cons.mp ha with rfl | ha'
    · simp [List.find?_cons]
    · have hk : key b ≠ key a := by
        intro he
        exact h.1 (he ▸ List.mem_map_of_mem key ha')
      rw [List.find?_cons_of_neg _ (by simp [hk])]
      exact ih h.2 ha'

theorem alookup_eq_of_mem {α : Type} {m : List (String × α)} (h : (keysOf m).Nodup)
    {id : String} {v : α} (hv : (id, v) ∈ m) : alookup m id = some v := by
  have := find?_keyed_eq Prod.fst (l := m) h hv
  simp only [alookup, this, Option.map_some']

theorem lookupBal_eq_of_mem {m : List (String × ℚ)} (h : (keysOf m).Nodup)
    {id : String} {v : ℚ} (hv : (id, v) ∈ m) : lookupBal m id = v := by
  rw [lookupBal, alookup_eq_of_mem h hv, Option.getD_some]

theorem alookup_eq_none {α : Type} {m : List (String × α)} {id : String}
    (h : id ∉ keysOf m) : alookup m id = none := by
  rw [alookup, List.find?_eq_none.mpr, Option.map_none']
  rintro ⟨k, v⟩ hm he
  exact h (by simpa using (beq_iff_eq.mp he ▸ List.mem_map_of_mem Prod.fst hm))

theorem alookup_append {α : Type} (m₁ m₂ : List (String × α)) (id : String) :
    alookup (m₁ ++ m₂) id = (alookup m₁ id).or (alookup m₂ id) := by
  simp only [alookup, List.find?_append]
  cases m₁.find? (fun p => p.1 == id) <;> simp

/-- A key-preserving pointwise update of an association list, looked up. -/
theorem alookup_map_keyed {f : (String × ℚ) → (String × ℚ)}
    (hf : ∀ p, (f p).1 = p.1) (m : List (String × ℚ)) (id : String) :
    alookup (m.map f) id = (m.find? (fun p => p.1 == id)).map (fun p => (f p).2) := by
  induction m with
  | nil => rfl
  | cons p ps ih =>
    by_cases hp : p.1 = id
    · rw [List.map_cons, alookup, List.find?_cons_of_pos _ (by simp [hf, hp]),
        List.find?_cons_of_pos _ (by simp [hp])]
      rfl
    · rw [List.map_cons, alookup, List.find?_cons_of_neg _ (by simp [hf, hp]),
        List.find?_cons_of_neg _ (by simp [hp])]
      exact ih

theorem keysOf_map_keyed {f : (String × ℚ) → (String × ℚ)}
    (hf : ∀ p, (f p).1 = p.1) (m : List (String × ℚ)) :
    keysOf (m.map f) = keysOf m := by
  simp only [keysOf, List.map_map]
  exact List.map_congr_left fun p _ => hf p

/-! ### `insertEntry` and the initial balance map -/

theorem keysOf_insertEntry {α : Type} (m : List (String × α)) (id : String) (v : α) :
    keysOf (insertEntry m id v) =
      if m.any (fun p => p.1 == id) then keysOf m else keysOf m ++ [id] := by
  unfold insertEntry
  split
  · simp only [keysOf, List.map_map]
    exact List.map_congr_left fun p _ => by by_cases h : p.1 = id <;> simp [h]
  · simp [keysOf]

theorem nodup_keysOf_insertEntry {α : Type} {m : List (String × α)}
    (h : (keysOf m).Nodup) (id : String) (v : α) :
    (keysOf (insertEntry m id v)).Nodup := by
  rw [keysOf_insertEntry]
  split
  · exact h
  · next hany =>
    rw [List.nodup_append]
    refine ⟨h, List.nodup_singleton id, ?_⟩
    intro a ha hb
    rw [List.mem_singleton] at hb
    subst hb
    obtain ⟨p, hp, hpk⟩ := List.mem_map.mp ha
    exact hany (List.any_eq_true.mpr ⟨p, hp, by simp [hpk]⟩)

theorem mem_insertEntry {α : Type} {m : List (String × α)} {id : String} {v : α}
    {p : String × α} (hp : p ∈ insertEntry m id v) : p ∈ m ∨ p = (id, v) := by
  unfold insertEntry at hp
  split at hp
  · obtain ⟨q, hq, he⟩ := List.mem_map.mp hp
    by_cases hqk : q.1 = id
    · right; rw [← he]; simp [hqk]
    · left; rwa [← he, if_neg (by simpa using hqk)]
  · rcases List.mem_append.mp hp with h | h
    · exact Or.inl h
    · right; rwa [List.mem_singleton] at h

theorem insertEntry_ne_nil {α : Type} {m : List (String × α)} {id : String} {v : α} :
    insertEntry m id v ≠ [] := by
  unfold insertEntry
  split
  · next hany =>
    intro he
    rw [List.map_eq_nil_iff] at he
    simp [he] at hany
  · simp

theorem foldl_insertEntry_ne_nil {α : Type} (f : Debt → α) (ds : List Debt)
    {m : List (String × α)} (hm : m ≠ [] ∨ ds ≠ []) :
    ds.foldl (fun acc d => insertEntry acc d.id (f d)) m ≠ [] := by
  induction ds generalizing m with
  | nil => simpa using hm
  | cons d ds ih => exact ih (Or.inl insertEntry_ne_nil)

theorem mem_foldl_insertEntry {α : Type} (f : Debt → α) (ds : List Debt)
    {m : List (String × α)} {p : String × α}
    (hp : p ∈ ds.foldl (fun acc d => insertEntry acc d.id (f d)) m) :
    p ∈ m ∨ ∃ d ∈ ds, p.2 = f d := by
  induction ds generalizing m with
  | nil => exact Or.inl hp
  | cons d ds ih =>
    rcases ih hp with h | ⟨d', hd', he⟩
    · rcases mem_insertEntry h with h' | h'
      · exact Or.inl h'
      · exact Or.inr ⟨d, List.mem_cons_self d ds, by rw [h']⟩
    · exact Or.inr ⟨d', List.mem_cons_of_mem d hd', he⟩

theorem nodup_keysOf_foldl_insertEntry {α : Type} (f : Debt → α) (ds : List Debt)
    {m : List (String × α)} (hm : (keysOf m).Nodup) :
    (keysOf (ds.foldl (fun acc d => insertEntry acc d.id (f d)) m)).Nodup := by
  induction ds generalizing m with
  | nil => exact hm
  | cons d ds ih => exact ih (nodup_keysOf_insertEntry hm d.id (f d))

/-- When the inserted keys are fresh and pairwise distinct, the JS
`forEach`-insert builds exactly the key-value list of the inputs. -/
theorem foldl_insertEntry_eq_map {α : Type} (f : Debt → α) (ds : List Debt)
    (m : List (String × α)) (hfresh : ∀ d ∈ ds, d.id ∉ keysOf m)
    (hnd : (ds.map (·.id)).Nodup) :
    ds.foldl (fun acc d => insertEntry acc d.id (f d)) m
      = m ++ ds.map (fun d => (d.id, f d)) := by
  induction ds generalizing m with
  | nil => simp
  | cons d ds ih =>
    rw [List.map_cons, List.nodup_cons] at hnd
    have hnotin : ¬ (m.any (fun p => p.1 == d.id) = true) := by
      intro h
      obtain ⟨p, hp, he⟩ := List.any_eq_true.mp h
      exact hfresh d (List.mem_cons_self d ds)
        (beq_iff_eq.mp he ▸ List.mem_map_of_mem Prod.fst hp)
    have hins : insertEntry m d.id (f d) = m ++ [(d.id, f d)] := by
      rw [insertEntry, if_neg hnotin]
    rw [List.foldl_cons, hins,
      ih (m ++ [(d.id, f d)])
        (by
          intro d' hd'
          rw [keysOf, List.map_append, List.mem_append]
          rintro (h | h)
          · exact hfresh d' (List.mem_cons_of_mem d hd') h
          · simp only [List.map_cons, List.map_nil, List.mem_singleton] at h
            exact hnd.1 (h ▸ List.mem_map_of_mem (·.id) hd'))
        hnd.2]
    simp

theorem alookup_mem {α : Type} {m : List (String × α)} {id : String} {v : α}
    (h : alookup m id = some v) : (id, v) ∈ m := by
  rw [alookup] at h
  obtain ⟨p, hp, he⟩ := Option.map_eq_some'.mp h
  have hk : p.1 = id := by simpa using List.find?_some hp
  have := List.mem_of_find?_eq_some hp
  rwa [← hk, ← he, Prod.mk.eta]

/-- Fold preservation of an invariant. -/
theorem foldl_preserve {α β : Type} (P : β → Prop) {f : β → α → β} {l : List α} {b : β}
    (hb : P b) (hf : ∀ b a, P b → P (f b a)) : P (l.foldl f b) := by
  induction l generalizing b with
  | nil => exact hb
  | cons x xs ih => exact ih (hf b x hb)

/-! ### Per-month lemmas about steps 1-5 -/

theorem mem_activeIdsOf {m : List (String × ℚ)} {id : String} :
    id ∈ activeIdsOf m ↔ ∃ b, (id, b) ∈ m ∧ 0 < b := by
  simp only [activeIdsOf, List.mem_map, List.mem_filter, decide_eq_true_eq]
  constructor
  · rintro ⟨⟨k, b⟩, ⟨hm, hb⟩, rfl⟩
    exact ⟨b, hm, hb⟩
  · rintro ⟨b, hm, hb⟩
    exact ⟨(id, b), ⟨hm, hb⟩, rfl⟩

theorem nodup_activeIdsOf {m : List (String × ℚ)} (h : (keysOf m).Nodup) :
    (activeIdsOf m).Nodup :=
  h.sublist ((List.filter_sublist m).map Prod.fst)

theorem keysOf_balsAfter (c : MonthCtx) (bals : List (String × ℚ)) :
    keysOf (balsAfter c bals) = keysOf bals :=
  keysOf_map_keyed (fun p => by by_cases h : 0 < p.2 <;> simp [h]) bals

theorem interestOf_eq {c : MonthCtx} {bals : List (String × ℚ)}
    (h : (keysOf bals).Nodup) {id : String} {b : ℚ} (hb : (id, b) ∈ bals) :
    interestOf c bals id = round2 (b * (findDebt c.debts id).apr / 12) := by
  rw [interestOf, calculateMonthlyInterest, lookupBal_eq_of_mem h hb]

theorem lookupBal_balsAfter_pos {c : MonthCtx} {bals : List (String × ℚ)}
    (h : (keysOf bals).Nodup) {id : String} {b : ℚ} (hb : (id, b) ∈ bals) (hpos : 0 < b) :
    lookupBal (balsAfter c bals) id = round2 (b + interestOf c bals id) := by
  rw [lookupBal, balsAfter,
    alookup_map_keyed (fun p => by by_cases hc : 0 < p.2 <;> simp [hc]) bals id,
    find?_keyed_eq Prod.fst h hb]
  simp [hpos]

theorem lookupBal_balsAfter_nonpos {c : MonthCtx} {bals : List (String × ℚ)}
    (h : (keysOf bals).Nodup) {id : String} {b : ℚ} (hb : (id, b) ∈ bals) (hpos : ¬ 0 < b) :
    lookupBal (balsAfter c bals) id = b := by
  rw [lookupBal, balsAfter,
    alookup_map_keyed (fun p => by by_cases hc : 0 < p.2 <;> simp [hc]) bals id,
    find?_keyed_eq Prod.fst h hb]
  simp [hpos]

theorem twoDp_lookupBal_balsAfter {c : MonthCtx} {bals : List (String × ℚ)}
    (h : (keysOf bals).Nodup) {id : String} {b : ℚ} (hb : (id, b) ∈ bals) (hpos : 0 < b) :
    TwoDp (lookupBal (balsAfter c bals) id) := by
  rw [lookupBal_balsAfter_pos h hb hpos]
  exact twoDp_round2 _

/-- Step 4's per-entry invariant: every allocated extra is nonnegative,
two-decimal, and at most the target's headroom. -/
theorem extraOf_spec (c : MonthCtx) (bals : List (String × ℚ)) (id : String) :
    0 ≤ extraOf c bals id ∧ TwoDp (extraOf c bals id) ∧
      extraOf c bals id ≤
        0 ⊔ round2 (lookupBal (balsAfter c bals) id - baselineOf c bals id) := by
  have key : ∀ p ∈ (allocOf c bals).1,
      0 ≤ p.2 ∧ TwoDp p.2 ∧
        p.2 ≤ 0 ⊔ round2 (lookupBal (balsAfter c bals) p.1 - baselineOf c bals p.1) := by
    have hinit : ∀ p ∈ (activeIdsOf bals).map (fun id => (id, (0 : ℚ))),
        0 ≤ p.2 ∧ TwoDp p.2 ∧
          p.2 ≤ 0 ⊔ round2 (lookupBal (balsAfter c bals) p.1 - baselineOf c bals p.1) := by
      rintro p hp
      obtain ⟨k, _, rfl⟩ := List.mem_map.mp hp
      exact ⟨le_refl 0, TwoDp.zero, le_max_left 0 _⟩
    rw [allocOf]
    split
    · refine foldl_preserve
        (fun acc : List (String × ℚ) × ℚ => ∀ p ∈ acc.1,
          0 ≤ p.2 ∧ TwoDp p.2 ∧
            p.2 ≤ 0 ⊔ round2 (lookupBal (balsAfter c bals) p.1 - baselineOf c bals p.1))
        hinit ?_
      rintro ⟨acc, pool⟩ targetId hacc p hp
      simp only at hp ⊢
      split at hp
      · exact hacc p hp
      · next hpool =>
        split at hp
        · next hmax =>
          rcases mem_insertEntry hp with h | h
          · exact hacc p h
          · subst h
            refine ⟨round2_nonneg (le_of_lt (lt_min (lt_of_not_le hpool) hmax)),
              twoDp_round2 _, ?_⟩
            calc round2 (pool ⊓ round2 (lookupBal (balsAfter c bals) targetId -
                    baselineOf c bals targetId))
                ≤ round2 (round2 (lookupBal (balsAfter c bals) targetId -
                    baselineOf c bals targetId)) := round2_mono (min_le_right _ _)
              _ = round2 (lookupBal (balsAfter c bals) targetId -
                    baselineOf c bals targetId) := (twoDp_round2 _).round2_eq
              _ ≤ _ := le_max_right 0 _
        · exact hacc p hp
    · exact hinit
  rw [extraOf]
  cases halo : alookup (allocOf c bals).1 id with
  | none => exact ⟨le_refl 0, TwoDp.zero, le_max_left 0 _⟩
  | some v =>
    have := key (id, v) (alookup_mem halo)
    simpa using this

theorem twoDp_baselineOf (c : MonthCtx) (bals : List (String × ℚ)) (id : String) :
    TwoDp (baselineOf c bals id) := twoDp_round2 _

theorem baselineOf_le_lookup {c : MonthCtx} {bals : List (String × ℚ)} {id : String}
    (h : TwoDp (lookupBal (balsAfter c bals) id)) :
    baselineOf c bals id ≤ lookupBal (balsAfter c bals) id := by
  calc baselineOf c bals id
      ≤ round2 (lookupBal (balsAfter c bals) id) := round2_mono (min_le_right _ _)
    _ = lookupBal (balsAfter c bals) id := h.round2_eq

theorem paymentOf_eq_add (c : MonthCtx) (bals : List (String × ℚ)) (id : String) :
    paymentOf c bals id = baselineOf c bals id + extraOf c bals id := by
  rw [paymentOf]
  exact ((twoDp_baselineOf c bals id).add (extraOf_spec c bals id).2.1).round2_eq

theorem paymentOf_le_lookup {c : MonthCtx} {bals : List (String × ℚ)} {id : String}
    (h : TwoDp (lookupBal (balsAfter c bals) id)) :
    paymentOf c bals id ≤ lookupBal (balsAfter c bals) id := by
  rw [paymentOf_eq_add]
  have hb := baselineOf_le_lookup h
  have hx := (extraOf_spec c bals id).2.2
  have hhead : round2 (lookupBal (balsAfter c bals) id - baselineOf c bals id)
      = lookupBal (balsAfter c bals) id - baselineOf c bals id :=
    (h.sub (twoDp_baselineOf c bals id)).round2_eq
  rw [hhead, max_eq_right (by linarith)] at hx
  linarith

theorem endingOf_nonneg (c : MonthCtx) (bals : List (String × ℚ)) (id : String) :
    0 ≤ endingOf c bals id := round2_nonneg (le_max_left 0 _)

theorem twoDp_endingOf (c : MonthCtx) (bals : List (String × ℚ)) (id : String) :
    TwoDp (endingOf c bals id) := twoDp_round2 _

theorem endingOf_eq_sub {c : MonthCtx} {bals : List (String × ℚ)} {id : String}
    (h : TwoDp (lookupBal (balsAfter c bals) id)) :
    endingOf c bals id = lookupBal (balsAfter c bals) id - paymentOf c bals id := by
  have hle := paymentOf_le_lookup h
  have h2 : TwoDp (lookupBal (balsAfter c bals) id - paymentOf c bals id) :=
    h.sub (twoDp_round2 _)
  rw [endingOf, max_eq_right (by linarith), h2.round2_eq]

theorem detailOf_starting_add_interest {c : MonthCtx} {bals : List (String × ℚ)}
    {id : String} (h : TwoDp (lookupBal (balsAfter c bals) id)) :
    (detailOf c bals id).startingBalance + (detailOf c bals id).interest
      = lookupBal (balsAfter c bals) id := by
  have h2 : TwoDp (lookupBal (balsAfter c bals) id - interestOf c bals id) :=
    h.sub (twoDp_round2 _)
  simp only [detailOf]
  rw [h2.round2_eq]
  ring

/-! ### Structure of `stepMonth` -/

theorem stepMonth_balances (c : MonthCtx) (dateStr : String) (mn : Nat) (st : SimState) :
    (stepMonth c dateStr mn st).1.balances
      = st.balances.map (fun p => if 0 < p.2 then (p.1, endingOf c st.balances p.1) else p) :=
  rfl

theorem stepMonth_details (c : MonthCtx) (dateStr : String) (mn : Nat) (st : SimState) :
    (stepMonth c dateStr mn st).2.debtDetails
      = (activeIdsOf st.balances).map (detailOf c st.balances) := rfl

theorem keysOf_stepMonth (c : MonthCtx) (dateStr : String) (mn : Nat) (st : SimState) :
    keysOf (stepMonth c dateStr mn st).1.balances = keysOf st.balances := by
  rw [stepMonth_balances]
  exact keysOf_map_keyed (fun p => by by_cases h : 0 < p.2 <;> simp [h]) st.balances

theorem lookupBal_stepMonth_pos {c : MonthCtx} {dateStr : String} {mn : Nat} {st : SimState}
    (h : (keysOf st.balances).Nodup) {id : String} {b : ℚ}
    (hb : (id, b) ∈ st.balances) (hpos : 0 < b) :
    lookupBal (stepMonth c dateStr mn st).1.balances id = endingOf c st.balances id := by
  rw [stepMonth_balances, lookupBal,
    alookup_map_keyed (fun p => by by_cases hc : 0 < p.2 <;> simp [hc]) st.balances id,
    find?_keyed_eq Prod.fst h hb]
  simp [hpos]

theorem lookupBal_stepMonth_nonpos {c : MonthCtx} {dateStr : String} {mn : Nat} {st : SimState}
    (h : (keysOf st.balances).Nodup) {id : String} {b : ℚ}
    (hb : (id, b) ∈ st.balances) (hpos : ¬ 0 < b) :
    lookupBal (stepMonth c dateStr mn st).1.balances id = b := by
  rw [stepMonth_balances, lookupBal,
    alookup_map_keyed (fun p => by by_cases hc : 0 < p.2 <;> simp [hc]) st.balances id,
    find?_keyed_eq Prod.fst h hb]
  simp [hpos]

/-! ### Lemmas about the `while` loop -/

theorem simLoop_length_le (c : MonthCtx) (bd : Date) (fuel mn : Nat) (st : SimState) :
    (simLoop c bd fuel mn st).1.length ≤ fuel := by
  induction fuel generalizing mn st with
  | zero => simp [simLoop]
  | succ fuel ih =>
    simp only [simLoop]
    split
    · simp
    · simpa using Nat.succ_le_succ (ih _ _)

theorem simLoop_monthNumber (c : MonthCtx) (bd : Date) (fuel mn : Nat) (st : SimState) :
    (simLoop c bd fuel mn st).2.2 = mn + (simLoop c bd fuel mn st).1.length := by
  induction fuel generalizing mn st with
  | zero => simp [simLoop]
  | succ fuel ih =>
    simp only [simLoop]
    split
    · simp
    · simp only [List.length_cons]
      rw [ih]
      ring

theorem simLoop_state_of_nil {c : MonthCtx} {bd : Date} {fuel mn : Nat} {st : SimState}
    (h : (simLoop c bd fuel mn st).1 = []) : (simLoop c bd fuel mn st).2.1 = st := by
  cases fuel with
  | zero => rfl
  | succ fuel =>
    simp only [simLoop] at h ⊢
    split at h
    · next hempty => simp only [simLoop, hempty, if_pos]
    · simp at h

theorem simLoop_nil_of_inactive {c : MonthCtx} {bd : Date} {fuel mn : Nat} {st : SimState}
    (h : activeIdsOf st.balances = []) : (simLoop c bd fuel mn st).1 = [] := by
  cases fuel with
  | zero => rfl
  | succ fuel => simp [simLoop, h]

theorem simLoop_ne_nil {c : MonthCtx} {bd : Date} {fuel mn : Nat} {st : SimState}
    (h : activeIdsOf st.balances ≠ []) (hf : 0 < fuel) :
    (simLoop c bd fuel mn st).1 ≠ [] := by
  cases fuel with
  | zero => exact absurd hf (by simp)
  | succ fuel =>
    simp only [simLoop]
    rw [if_neg (by simpa using h)]
    simp

theorem keysOf_simLoop (c : MonthCtx) (bd : Date) (fuel mn : Nat) (st : SimState) :
    keysOf (simLoop c bd fuel mn st).2.1.balances = keysOf st.balances := by
  induction fuel generalizing mn st with
  | zero => rfl
  | succ fuel ih =>
    simp only [simLoop]
    split
    · rfl
    · rw [ih]
      exact keysOf_stepMonth ..

theorem simLoop_final_inactive {c : MonthCtx} {bd : Date} {fuel mn : Nat} {st : SimState}
    (h : (simLoop c bd fuel mn st).1.length < fuel) :
    ∀ p ∈ (simLoop c bd fuel mn st).2.1.balances, ¬ 0 < p.2 := by
  induction fuel generalizing mn st with
  | zero => exact absurd h (by simp)
  | succ fuel ih =>
    simp only [simLoop] at h ⊢
    split at h
    · next hempty =>
      simp only [hempty, if_pos]
      intro p hp hpos
      have : p.1 ∈ activeIdsOf st.balances := mem_activeIdsOf.mpr ⟨p.2, by simpa using hp, hpos⟩
      rw [List.isEmpty_iff] at hempty
      simp [hempty] at this
    · next hempty =>
      rw [if_neg hempty]
      simp only [List.length_cons, Nat.succ_lt_succ_iff] at h
      exact ih h

theorem simLoop_rows_ending_nonneg (c : MonthCtx) (bd : Date) (fuel mn : Nat) (st : SimState) :
    ∀ row ∈ (simLoop c bd fuel mn st).1, ∀ det ∈ row.debtDetails, 0 ≤ det.endingBalance := by
  induction fuel generalizing mn st with
  | zero => simp [simLoop]
  | succ fuel ih =>
    simp only [simLoop]
    split
    · simp
    · intro row hrow det hdet
      rcases List.mem_cons.mp hrow with rfl | hrow'
      · rw [stepMonth_details] at hdet
        obtain ⟨id, _, rfl⟩ := List.mem_map.mp hdet
        exact endingOf_nonneg ..
      · exact ih _ _ row hrow' det hdet

theorem simLoop_rows_details_ne_nil (c : MonthCtx) (bd : Date) (fuel mn : Nat) (st : SimState) :
    ∀ row ∈ (simLoop c bd fuel mn st).1, row.debtDetails ≠ [] := by
  induction fuel generalizing mn st with
  | zero => simp [simLoop]
  | succ fuel ih =>
    simp only [simLoop]
    split
    · simp
    · next hempty =>
      intro row hrow
      rcases List.mem_cons.mp hrow with rfl | hrow'
      · rw [stepMonth_details]
        simpa [List.map_eq_nil_iff, List.isEmpty_iff] using hempty
      · exact ih _ _ row hrow'

theorem simLoop_getLast_lookup {c : MonthCtx} {bd : Date} {fuel mn : Nat} {st : SimState}
    (hNK : (keysOf st.balances).Nodup) :
    ∀ row, (simLoop c bd fuel mn st).1.getLast? = some row →
      ∀ det ∈ row.debtDetails,
        det.endingBalance = lookupBal (simLoop c bd fuel mn st).2.1.balances det.debtId := by
  induction fuel generalizing mn st with
  | zero => simp [simLoop]
  | succ fuel ih =>
    simp only [simLoop]
    split
    · simp
    · intro row hrow det hdet
      rcases hrest : (simLoop c bd fuel (mn + 1)
          (stepMonth c (formatDate (addMonths bd (mn + 1))) (mn + 1) st).1).1 with _ | ⟨r0, rs⟩
      · rw [hrest] at hrow
        simp only [List.getLast?_singleton, Option.some.injEq] at hrow
        subst hrow
        rw [stepMonth_details] at hdet
        obtain ⟨id, hid, rfl⟩ := List.mem_map.mp hdet
        obtain ⟨b, hbmem, hbpos⟩ := mem_activeIdsOf.mp hid
        have hfin := simLoop_state_of_nil hrest
        rw [hfin]
        show (detailOf c st.balances id).endingBalance
          = lookupBal (stepMonth c (formatDate (addMonths bd (mn + 1)))
              (mn + 1) st).1.balances id
        rw [lookupBal_stepMonth_pos hNK hbmem hbpos]
        rfl
      · rw [hrest] at hrow
        rw [List.getLast?_cons_cons] at hrow
        rw [← hrest] at hrow
        have hNK' : (keysOf (stepMonth c (formatDate (addMonths bd (mn + 1)))
            (mn + 1) st).1.balances).Nodup := by
          rw [keysOf_stepMonth]; exact hNK
        exact ih hNK' row hrow det hdet

theorem simLoop_allzero_isLast {c : MonthCtx} {bd : Date} {fuel mn : Nat} {st : SimState}
    (hNK : (keysOf st.balances).Nodup) :
    ∀ row ∈ (simLoop c bd fuel mn st).1,
      (∀ det ∈ row.debtDetails, det.endingBalance = 0) →
        (simLoop c bd fuel mn st).1.getLast? = some row := by
  induction fuel generalizing mn st with
  | zero => simp [simLoop]
  | succ fuel ih =>
    simp only [simLoop]
    split
    · simp
    · intro row hrow hz
      rcases List.mem_cons.mp hrow with heq | hrow'
      · have hrest : (simLoop c bd fuel (mn + 1)
            (stepMonth c (formatDate (addMonths bd (mn + 1))) (mn + 1) st).1).1 = [] := by
          apply simLoop_nil_of_inactive
          by_contra hne
          obtain ⟨id, hid⟩ := List.exists_mem_of_ne_nil _ hne
          obtain ⟨b, hbmem, hbpos⟩ := mem_activeIdsOf.mp hid
          rw [stepMonth_balances] at hbmem
          obtain ⟨p, hp, he⟩ := List.mem_map.mp hbmem
          by_cases hppos : 0 < p.2
          · rw [if_pos hppos] at he
            have hidp : p.1 = id := congrArg Prod.fst he
            have hdet : detailOf c st.balances id ∈ row.debtDetails := by
              rw [heq, stepMonth_details]
              refine List.mem_map_of_mem _ (mem_activeIdsOf.mpr ⟨p.2, ?_, hppos⟩)
              rw [← hidp, Prod.mk.eta]
              exact hp
            have hz0 := hz _ hdet
            have hb0 : endingOf c st.balances id = b := by
              rw [← hidp]
              exact congrArg Prod.snd he
            have hzero : endingOf c st.balances id = 0 := hz0
            rw [hb0] at hzero
            exact absurd hzero (ne_of_gt hbpos)
          · rw [if_neg hppos] at he
            have hpb : p.2 = b := congrArg Prod.snd he
            exact hppos (hpb ▸ hbpos)
        show ((stepMonth c (formatDate (addMonths bd (mn + 1))) (mn + 1) st).2 ::
            (simLoop c bd fuel (mn + 1)
              (stepMonth c (formatDate (addMonths bd (mn + 1))) (mn + 1) st).1).1).getLast?
          = some row
        rw [hrest, heq]
        rfl
      · have hNK' : (keysOf (stepMonth c (formatDate (addMonths bd (mn + 1)))
            (mn + 1) st).1.balances).Nodup := by
          rw [keysOf_stepMonth]; exact hNK
        have hlast := ih hNK' row hrow' hz
        show ((stepMonth c (formatDate (addMonths bd (mn + 1))) (mn + 1) st).2 ::
            (simLoop c bd fuel (mn + 1)
              (stepMonth c (formatDate (addMonths bd (mn + 1))) (mn + 1) st).1).1).getLast?
          = some row
        rcases hrest : (simLoop c bd fuel (mn + 1)
            (stepMonth c (formatDate (addMonths bd (mn + 1))) (mn + 1) st).1).1 with _ | ⟨r0, rs⟩
        · rw [hrest] at hrow'
          cases hrow'
        · rw [hrest] at hlast
          rw [List.getLast?_cons_cons]
          exact hlast

/-! ### Projections of `calculatePayoffSchedule` and the initial state -/

theorem schedule_eq (debts : List Debt) (strategy : Strategy) (budget : ℚ) (bd : Date) :
    (calculatePayoffSchedule debts strategy budget bd).schedule
      = (simRes debts strategy budget bd).1 := rfl

theorem monthsToPayoff_eq (debts : List Debt) (strategy : Strategy) (budget : ℚ) (bd : Date) :
    (calculatePayoffSchedule debts strategy budget bd).monthsToPayoff
      = (simRes debts strategy budget bd).2.2 := rfl

theorem payoffDate_eq (debts : List Debt) (strategy : Strategy) (budget : ℚ) (bd : Date) :
    (calculatePayoffSchedule debts strategy budget bd).payoffDate
      = (((simRes debts strategy budget bd).1.getLast?).map (·.date)).getD
          (formatDate bd) := rfl

theorem payoffDatePerDebt_eq (debts : List Debt) (strategy : Strategy) (budget : ℚ) (bd : Date) :
    (calculatePayoffSchedule debts strategy budget bd).payoffDatePerDebt
      = (simRes debts strategy budget bd).2.1.payoffDatePerDebt := rfl

theorem payoffOrder_eq (debts : List Debt) (strategy : Strategy) (budget : ℚ) (bd : Date) :
    (calculatePayoffSchedule debts strategy budget bd).payoffOrder
      = (getPayoffOrder debts strategy).map (·.id) := rfl

theorem nodup_keysOf_initialBalances (debts : List Debt) :
    (keysOf (initialBalances debts)).Nodup :=
  nodup_keysOf_foldl_insertEntry (fun d => d.balance) _ (by simp [keysOf])

theorem initialBalances_pos (debts : List Debt) :
    ∀ p ∈ initialBalances debts, 0 < p.2 := by
  intro p hp
  rcases mem_foldl_insertEntry (fun d => d.balance) _ hp with h | ⟨d, hd, he⟩
  · cases h
  · rw [he]
    have := (List.mem_filter.mp hd).2
    simp only [isActiveDebt, Bool.and_eq_true, decide_eq_true_eq] at this
    exact this.2

theorem initialBalances_ne_nil {debts : List Debt} (h : debts.filter isActiveDebt ≠ []) :
    initialBalances debts ≠ [] :=
  foldl_insertEntry_ne_nil (fun d => d.balance) _ (Or.inr h)

theorem mem_of_getLast?_eq_some {α : Type} {l : List α} {a : α}
    (h : l.getLast? = some a) : a ∈ l := by
  induction l with
  | nil => cases h
  | cons x xs ih =>
    cases xs with
    | nil =>
      rw [List.getLast?_singleton, Option.some.injEq] at h
      rw [← h]
      exact List.mem_cons_self x []
    | cons y ys =>
      rw [List.getLast?_cons_cons] at h
      exact List.mem_cons_of_mem x (ih h)

/-! ### Claim theorems: C2 and C3 -/

/-- C2: `calculatePayoffSchedule` produces at most 480 rows; it stops before
the cap exactly when every working balance has reached 0 (a month with no
active debt is never emitted, and a month in which every debt ends at 0 is
the last row); `monthsToPayoff` equals the number of rows; and `payoffDate`
is the last row's date, or the start date formatted `yyyy-MM-dd` when zero
rows are produced, which happens exactly when no debt was active at the
start. -/
theorem c2_termination_and_result (debts : List Debt) (strategy : Strategy)
    (monthlyBudget : ℚ) (balanceDate : Date) :
    (calculatePayoffSchedule debts strategy monthlyBudget balanceDate).schedule.length ≤ 480 ∧
    (calculatePayoffSchedule debts strategy monthlyBudget balanceDate).monthsToPayoff
      = (calculatePayoffSchedule debts strategy monthlyBudget balanceDate).schedule.length ∧
    (∀ row ∈ (calculatePayoffSchedule debts strategy monthlyBudget balanceDate).schedule,
      row.debtDetails ≠ []) ∧
    ((calculatePayoffSchedule debts strategy monthlyBudget balanceDate).schedule.length < 480 →
      ∀ row, (calculatePayoffSchedule debts strategy monthlyBudget
          balanceDate).schedule.getLast? = some row →
        ∀ det ∈ row.debtDetails, det.endingBalance = 0) ∧
    (∀ row ∈ (calculatePayoffSchedule debts strategy monthlyBudget balanceDate).schedule,
      (∀ det ∈ row.debtDetails, det.endingBalance = 0) →
        (calculatePayoffSchedule debts strategy monthlyBudget
          balanceDate).schedule.getLast? = some row) ∧
    ((calculatePayoffSchedule debts strategy monthlyBudget balanceDate).schedule = []
      ↔ debts.filter isActiveDebt = []) ∧
    ((calculatePayoffSchedule debts strategy monthlyBudget balanceDate).schedule = [] →
      (calculatePayoffSchedule debts strategy monthlyBudget balanceDate).payoffDate
        = formatDate balanceDate) ∧
    (∀ row, (calculatePayoffSchedule debts strategy monthlyBudget
        balanceDate).schedule.getLast? = some row →
      (calculatePayoffSchedule debts strategy monthlyBudget balanceDate).payoffDate
        = row.date) := by
  simp only [schedule_eq, monthsToPayoff_eq, payoffDate_eq, simRes]
  have hNK := nodup_keysOf_initialBalances debts
  have hNK' : (keysOf (⟨initialBalances debts, 0, []⟩ : SimState).balances).Nodup := hNK
  refine ⟨?_, ?_, ?_, ?_, ?_, ?_, ?_, ?_⟩
  · exact simLoop_length_le ..
  · rw [simLoop_monthNumber]
    omega
  · exact fun row hrow => simLoop_rows_details_ne_nil _ _ _ _ _ row hrow
  · intro hlen row hrow det hdet
    have h1 := simLoop_getLast_lookup hNK' row hrow det hdet
    have h2 := simLoop_final_inactive hlen
    have hge : 0 ≤ det.endingBalance :=
      simLoop_rows_ending_nonneg _ _ _ _ _ row (mem_of_getLast?_eq_some hrow) det hdet
    have hle : det.endingBalance ≤ 0 := by
      rw [h1, lookupBal]
      cases halo : alookup (simLoop ⟨debts, strategy, monthlyBudget,
          (getPayoffOrder debts strategy).map (·.id)⟩ balanceDate MAX_MONTHS 0
          ⟨initialBalances debts, 0, []⟩).2.1.balances det.debtId with
      | none => simp
      | some v =>
        have hv := h2 _ (alookup_mem halo)
        simpa using le_of_not_lt hv
    linarith
  · exact fun row hrow hz => simLoop_allzero_isLast hNK' row hrow hz
  · constructor
    · intro hnil
      by_contra hne
      have hinit : initialBalances debts ≠ [] := initialBalances_ne_nil hne
      have hact : activeIdsOf (initialBalances debts) ≠ [] := by
        rcases hi : initialBalances debts with _ | ⟨p, ps⟩
        · exact absurd hi hinit
        · intro h0
          have hp : p ∈ initialBalances debts := by
            rw [hi]
            exact List.mem_cons_self p ps
          have hmem : p.1 ∈ activeIdsOf (p :: ps) := by
            rw [← hi]
            exact mem_activeIdsOf.mpr ⟨p.2, by rwa [Prod.mk.eta], initialBalances_pos debts p hp⟩
          rw [h0] at hmem
          cases hmem
      exact simLoop_ne_nil hact (by norm_num [MAX_MONTHS]) hnil
    · intro hfil
      apply simLoop_nil_of_inactive
      show activeIdsOf (initialBalances debts) = []
      rw [initialBalances, hfil]
      rfl
  · intro hnil
    rw [hnil]
    rfl
  · intro row hrow
    rw [hrow]
    rfl

/-- In every row of any simulation run, the per-month running total equals
`round2` of the sum of the rounded per-debt ending balances. -/
theorem simLoop_conservation (c : MonthCtx) (bd : Date) (fuel mn : Nat) (st : SimState) :
    ∀ row ∈ (simLoop c bd fuel mn st).1,
      row.totalRemainingBalance = round2 ((row.debtDetails.map (·.endingBalance)).sum) := by
  induction fuel generalizing mn st with
  | zero => simp [simLoop]
  | succ fuel ih =>
    simp only [simLoop]
    split
    · simp
    · intro row hrow
      rcases List.mem_cons.mp hrow with heq | hrow'
      · rw [heq]
        show (activeIdsOf st.balances).foldl
            (fun acc id => round2 (acc + endingOf c st.balances id)) 0
          = round2 ((((activeIdsOf st.balances).map (detailOf c st.balances)).map
              (·.endingBalance)).sum)
        rw [List.map_map]
        have hmap : ((activeIdsOf st.balances).map
            ((fun det => det.endingBalance) ∘ detailOf c st.balances))
            = (activeIdsOf st.balances).map (endingOf c st.balances) := rfl
        rw [hmap, ← List.foldl_map (endingOf c st.balances)
          (fun acc x => round2 (acc + x))]
        have hdp : ∀ x ∈ (activeIdsOf st.balances).map (endingOf c st.balances), TwoDp x := by
          intro x hx
          obtain ⟨id, _, rfl⟩ := List.mem_map.mp hx
          exact twoDp_endingOf ..
        rw [foldl_round2_add_eq_sum 0 TwoDp.zero hdp, zero_add,
          (twoDp_sum hdp).round2_eq]
      · exact ih _ _ row hrow'

/-- C3: in every schedule row, `totalRemainingBalance` is `round2` of the sum
of the per-debt `endingBalance` figures (the running total accumulated with
`round2` at each step coincides with the exact sum of the already-rounded
ending balances). -/
theorem c3_balance_conservation (debts : List Debt) (strategy : Strategy)
    (monthlyBudget : ℚ) (balanceDate : Date) :
    ∀ row ∈ (calculatePayoffSchedule debts strategy monthlyBudget balanceDate).schedule,
      row.totalRemainingBalance = round2 ((row.debtDetails.map (·.endingBalance)).sum) := by
  rw [schedule_eq]
  exact fun row hrow => simLoop_conservation _ _ _ _ _ row hrow

/-! ### Claim theorems: C4 ordering policy, C1 custom ranks -/

theorem balance_le_trans : ∀ a b c : Debt,
    decide (a.balance ≤ b.balance) = true → decide (b.balance ≤ c.balance) = true →
      decide (a.balance ≤ c.balance) = true := by
  intro a b c h1 h2
  simp only [decide_eq_true_eq] at *
  exact le_trans h1 h2

theorem balance_le_total : ∀ a b : Debt,
    (decide (a.balance ≤ b.balance) || decide (b.balance ≤ a.balance)) = true := by
  intro a b
  simpa using le_total a.balance b.balance

theorem apr_ge_trans : ∀ a b c : Debt,
    decide (b.apr ≤ a.apr) = true → decide (c.apr ≤ b.apr) = true →
      decide (c.apr ≤ a.apr) = true := by
  intro a b c h1 h2
  simp only [decide_eq_true_eq] at *
  exact le_trans h2 h1

theorem apr_ge_total : ∀ a b : Debt,
    (decide (b.apr ≤ a.apr) || decide (a.apr ≤ b.apr)) = true := by
  intro a b
  simpa using le_total b.apr a.apr

/-- C4: `getPayoffOrder` filters to `active && balance > 0`; order-entered and
no-snowball keep the input order of the filtered list; snowball sorts it
ascending by balance and avalanche descending by APR, both stably (a pair
equal under the sort key that appears in order in the filtered input appears
in the same order in the output); an empty input yields an empty result. -/
theorem c4_get_payoff_order (debts : List Debt) :
    (∀ s : Strategy, getPayoffOrder [] s = []) ∧
    getPayoffOrder debts Strategy.ORDER_ENTERED = debts.filter isActiveDebt ∧
    getPayoffOrder debts Strategy.NO_SNOWBALL = debts.filter isActiveDebt ∧
    (getPayoffOrder debts Strategy.SNOWBALL_LOWEST_BALANCE).Perm
      (debts.filter isActiveDebt) ∧
    (getPayoffOrder debts Strategy.SNOWBALL_LOWEST_BALANCE).Pairwise
      (fun a b => a.balance ≤ b.balance) ∧
    (∀ a b : Debt, a.balance = b.balance → [a, b].Sublist (debts.filter isActiveDebt) →
      [a, b].Sublist (getPayoffOrder debts Strategy.SNOWBALL_LOWEST_BALANCE)) ∧
    (getPayoffOrder debts Strategy.AVALANCHE_HIGHEST_APR).Perm
      (debts.filter isActiveDebt) ∧
    (getPayoffOrder debts Strategy.AVALANCHE_HIGHEST_APR).Pairwise
      (fun a b => b.apr ≤ a.apr) ∧
    (∀ a b : Debt, a.apr = b.apr → [a, b].Sublist (debts.filter isActiveDebt) →
      [a, b].Sublist (getPayoffOrder debts Strategy.AVALANCHE_HIGHEST_APR)) := by
  refine ⟨?_, rfl, rfl, ?_, ?_, ?_, ?_, ?_, ?_⟩
  · intro s
    cases s <;> simp [getPayoffOrder]
  · exact List.mergeSort_perm _ _
  · exact ((List.sorted_mergeSort balance_le_trans balance_le_total
      (debts.filter isActiveDebt)).imp (fun h => of_decide_eq_true h))
  · intro a b hab hsub
    exact List.sublist_mergeSort balance_le_trans balance_le_total
      (List.pairwise_pair.mpr (decide_eq_true (le_of_eq hab))) hsub
  · exact List.mergeSort_perm _ _
  · exact ((List.sorted_mergeSort apr_ge_trans apr_ge_total
      (debts.filter isActiveDebt)).imp (fun h => of_decide_eq_true h))
  · intro a b hab hsub
    exact List.sublist_mergeSort apr_ge_trans apr_ge_total
      (List.pairwise_pair.mpr (decide_eq_true (le_of_eq hab.symm))) hsub

theorem rank_low_trans : ∀ a b c : Debt,
    decide (rankOf a ≤ rankOf b) = true → decide (rankOf b ≤ rankOf c) = true →
      decide (rankOf a ≤ rankOf c) = true := by
  intro a b c h1 h2
  simp only [decide_eq_true_eq] at *
  exact le_trans h1 h2

theorem rank_low_total : ∀ a b : Debt,
    (decide (rankOf a ≤ rankOf b) || decide (rankOf b ≤ rankOf a)) = true := by
  intro a b
  simpa using le_total (rankOf a) (rankOf b)

theorem rank_high_trans : ∀ a b c : Debt,
    decide (rankOf b ≤ rankOf a) = true → decide (rankOf c ≤ rankOf b) = true →
      decide (rankOf c ≤ rankOf a) = true := by
  intro a b c h1 h2
  simp only [decide_eq_true_eq] at *
  exact le_trans h2 h1

theorem rank_high_total : ∀ a b : Debt,
    (decide (rankOf b ≤ rankOf a) || decide (rankOf a ≤ rankOf b)) = true := by
  intro a b
  simpa using le_total (rankOf b) (rankOf a)

/-- C1 (amended): both custom strategies substitute `Number.MAX_SAFE_INTEGER`
for a missing `customRank`.  Hence, when every present rank is below
`MAX_SAFE_INTEGER`, the lowest-first variant places every unranked debt after
all ranked debts, while the highest-first variant places every unranked debt
before all ranked debts. -/
theorem c1_custom_rank_amended (debts : List Debt)
    (h : ∀ d ∈ debts, ∀ r : Int, d.customRank = some r → r < maxSafeInteger) :
    rankedBeforeUnranked (getPayoffOrder debts Strategy.CUSTOM_LOWEST_FIRST) ∧
    unrankedBeforeRanked (getPayoffOrder debts Strategy.CUSTOM_HIGHEST_FIRST) := by
  constructor
  · have hs := List.sorted_mergeSort rank_low_trans rank_low_total
      (debts.filter isActiveDebt)
    refine hs.imp_of_mem ?_
    intro a b ha hb hle
    rintro ⟨hanone, hbsome⟩
    have hamem : a ∈ debts :=
      (List.mem_filter.mp ((List.mergeSort_perm _ _).mem_iff.mp ha)).1
    have hbmem : b ∈ debts :=
      (List.mem_filter.mp ((List.mergeSort_perm _ _).mem_iff.mp hb)).1
    obtain ⟨r, hr⟩ := Option.ne_none_iff_exists'.mp hbsome
    have hrlt := h b hbmem r hr
    have hle' : rankOf a ≤ rankOf b := of_decide_eq_true hle
    rw [rankOf, hanone, Option.getD_none, rankOf, hr, Option.getD_some] at hle'
    exact absurd (lt_of_le_of_lt hle' hrlt) (lt_irrefl _)
  · have hs := List.sorted_mergeSort rank_high_trans rank_high_total
      (debts.filter isActiveDebt)
    refine hs.imp_of_mem ?_
    intro a b ha hb hle
    rintro ⟨hasome, hbnone⟩
    have hamem : a ∈ debts :=
      (List.mem_filter.mp ((List.mergeSort_perm _ _).mem_iff.mp ha)).1
    obtain ⟨r, hr⟩ := Option.ne_none_iff_exists'.mp hasome
    have hrlt := h a hamem r hr
    have hle' : rankOf b ≤ rankOf a := of_decide_eq_true hle
    rw [rankOf, hbnone, Option.getD_none, rankOf, hr, Option.getD_some] at hle'
    exact absurd (lt_of_le_of_lt hle' hrlt) (lt_irrefl _)

/-! ### Claim theorems: C5 budget validation -/

theorem foldl_add_eq_sum {α : Type} (f : α → ℚ) (l : List α) (a : ℚ) :
    l.foldl (fun acc x => acc + f x) a = a + (l.map f).sum := by
  induction l generalizing a with
  | nil => simp
  | cons x xs ih =>
    simp only [List.foldl_cons, List.map_cons, List.sum_cons]
    rw [ih]
    ring

/-- C5: `validateMonthlyBudget` returns
`initialSnowball = round2(monthlyBudget - Σ minPayment over active debts with
positive balance)`, is valid exactly when that quantity is nonnegative, and
on failure reports the absolute shortfall rendered with two decimals. -/
theorem c5_validate_monthly_budget (monthlyBudget : ℚ) (debts : List Debt) :
    (validateMonthlyBudget monthlyBudget debts).initialSnowball
      = round2 (monthlyBudget - ((debts.filter isActiveDebt).map (·.minPayment)).sum) ∧
    ((validateMonthlyBudget monthlyBudget debts).valid = true
      ↔ 0 ≤ (validateMonthlyBudget monthlyBudget debts).initialSnowball) ∧
    ((validateMonthlyBudget monthlyBudget debts).valid = false →
      (validateMonthlyBudget monthlyBudget debts).message
        = some ("Need to increase monthly payment by $"
            ++ toFixed2 |(validateMonthlyBudget monthlyBudget debts).initialSnowball|
            ++ " to cover minimum payments.")) := by
  have hsum : (debts.filter isActiveDebt).foldl (fun sum d => sum + d.minPayment) 0
      = ((debts.filter isActiveDebt).map (·.minPayment)).sum := by
    have h0 := foldl_add_eq_sum (fun d : Debt => d.minPayment) (debts.filter isActiveDebt) 0
    rw [zero_add] at h0
    exact h0
  simp only [validateMonthlyBudget, hsum]
  split
  · next hneg =>
    refine ⟨rfl, ?_, fun _ => rfl⟩
    simp only [Bool.false_eq_true, false_iff, not_le]
    exact hneg
  · next hpos =>
    refine ⟨rfl, ?_, fun hc => absurd hc (by simp)⟩
    simpa using le_of_not_lt hpos

/-! ### Claim theorems: C10 no overpayment -/

/-- In every detail row, the payment never exceeds the balance after interest
and the ending balance is the exact (unclamped) difference: the balance after
interest, the baseline, and every allocated extra are all `round2` outputs,
so the allocation caps apply exactly. -/
theorem simLoop_no_overpayment (c : MonthCtx) (bd : Date) (fuel mn : Nat) (st : SimState)
    (hNK : (keysOf st.balances).Nodup) :
    ∀ row ∈ (simLoop c bd fuel mn st).1, ∀ det ∈ row.debtDetails,
      det.payment ≤ det.startingBalance + det.interest ∧
      det.endingBalance = det.startingBalance + det.interest - det.payment := by
  induction fuel generalizing mn st with
  | zero => simp [simLoop]
  | succ fuel ih =>
    simp only [simLoop]
    split
    · simp
    · intro row hrow det hdet
      rcases List.mem_cons.mp hrow with heq | hrow'
      · rw [heq, stepMonth_details] at hdet
        obtain ⟨id, hid, rfl⟩ := List.mem_map.mp hdet
        obtain ⟨b, hbmem, hbpos⟩ := mem_activeIdsOf.mp hid
        have hba : TwoDp (lookupBal (balsAfter c st.balances) id) :=
          twoDp_lookupBal_balsAfter hNK hbmem hbpos
        have hstar := detailOf_starting_add_interest hba
        constructor
        · show paymentOf c st.balances id ≤ _
          rw [hstar]
          exact paymentOf_le_lookup hba
        · show endingOf c st.balances id = _
          rw [hstar]
          exact endingOf_eq_sub hba
      · exact ih _ _ (by rw [keysOf_stepMonth]; exact hNK) row hrow' det hdet

/-- C10: for inputs whose balances and minimum payments carry at most two
decimal places, no debt is ever overpaid: in every detail row the payment is
at most the balance after interest (`startingBalance + interest`), and the
ending balance equals `round2` of the un-clamped difference, which is itself
exact.  (The proof shows the rounding discipline makes this hold for every
input: all the quantities involved are already `round2` outputs.) -/
theorem c10_no_overpayment (debts : List Debt) (strategy : Strategy)
    (monthlyBudget : ℚ) (balanceDate : Date)
    (_h : ∀ d ∈ debts, TwoDp d.balance ∧ TwoDp d.minPayment) :
    ∀ row ∈ (calculatePayoffSchedule debts strategy monthlyBudget balanceDate).schedule,
      ∀ det ∈ row.debtDetails,
        det.payment ≤ det.startingBalance + det.interest ∧
        det.endingBalance = round2 (det.startingBalance + det.interest - det.payment) ∧
        det.endingBalance = det.startingBalance + det.interest - det.payment := by
  rw [schedule_eq, simRes]
  intro row hrow det hdet
  obtain ⟨h1, h2⟩ := simLoop_no_overpayment _ _ _ _ _
    (nodup_keysOf_initialBalances debts) row hrow det hdet
  have hdp : TwoDp (det.startingBalance + det.interest - det.payment) := by
    rw [← h2]
    have : ∀ r ∈ (simLoop ⟨debts, strategy, monthlyBudget,
        (getPayoffOrder debts strategy).map (·.id)⟩ balanceDate MAX_MONTHS 0
        ⟨initialBalances debts, 0, []⟩).1, ∀ dd ∈ r.debtDetails, TwoDp dd.endingBalance := by
      clear hrow hdet h1 h2 row det
      generalize MAX_MONTHS = fuel
      generalize (0 : Nat) = mn
      generalize (⟨initialBalances debts, 0, []⟩ : SimState) = st
      induction fuel generalizing mn st with
      | zero => simp [simLoop]
      | succ fuel ih =>
        simp only [simLoop]
        split
        · simp
        · intro r hr dd hdd
          rcases List.mem_cons.mp hr with heq | hr'
          · rw [heq, stepMonth_details] at hdd
            obtain ⟨id, _, rfl⟩ := List.mem_map.mp hdd
            exact twoDp_endingOf ..
          · exact ih _ _ r hr' dd hdd
    exact this row hrow det hdet
  exact ⟨h1, by rw [hdp.round2_eq]; exact h2, h2⟩

/-! ### Claim theorems: C7 monotonic decrease -/

theorem twoDp_interestOf (c : MonthCtx) (bals : List (String × ℚ)) (id : String) :
    TwoDp (interestOf c bals id) := by
  rw [interestOf, calculateMonthlyInterest]
  exact twoDp_round2 _

/-- Core month inequality: when the balance is a two-decimal positive amount
and the minimum payment covers this month's rounded interest, the balance
can only go down (or reach 0). -/
theorem endingOf_le_of_covers {c : MonthCtx} {bals : List (String × ℚ)}
    (hNK : (keysOf bals).Nodup) {id : String} {b : ℚ} (hmem : (id, b) ∈ bals)
    (hb : 0 < b) (h2 : TwoDp b)
    (hcov : round2 (b * (findDebt c.debts id).apr / 12) ≤ (findDebt c.debts id).minPayment) :
    endingOf c bals id ≤ b := by
  have hi : interestOf c bals id = round2 (b * (findDebt c.debts id).apr / 12) :=
    interestOf_eq hNK hmem
  have hile : interestOf c bals id ≤ (findDebt c.debts id).minPayment := by
    rw [hi]; exact hcov
  have hitd : TwoDp (interestOf c bals id) := twoDp_interestOf ..
  have hba : lookupBal (balsAfter c bals) id = b + interestOf c bals id := by
    rw [lookupBal_balsAfter_pos hNK hmem hb]
    exact (h2.add hitd).round2_eq
  rcases le_or_lt (b + interestOf c bals id) (findDebt c.debts id).minPayment with hle | hlt
  · have hbase : baselineOf c bals id = b + interestOf c bals id := by
      rw [baselineOf, hba, min_eq_right hle]
      exact (h2.add hitd).round2_eq
    have hpay : b + interestOf c bals id ≤ paymentOf c bals id := by
      rw [paymentOf_eq_add, hbase]
      have := (extraOf_spec c bals id).1
      linarith
    have hnp : lookupBal (balsAfter c bals) id - paymentOf c bals id ≤ 0 := by
      rw [hba]; linarith
    rw [endingOf, max_eq_left hnp, round2_zero]
    exact le_of_lt hb
  · have hbase : baselineOf c bals id = round2 (findDebt c.debts id).minPayment := by
      rw [baselineOf, hba, min_eq_left (le_of_lt hlt)]
    have hext := (extraOf_spec c bals id).1
    have hpay_ge : baselineOf c bals id ≤ paymentOf c bals id := by
      rw [paymentOf_eq_add]; linarith
    have hmono : endingOf c bals id
        ≤ round2 (0 ⊔ (lookupBal (balsAfter c bals) id - baselineOf c bals id)) :=
      round2_mono (max_le_max (le_refl 0) (by linarith))
    have hi2 : interestOf c bals id ≤ round2 (findDebt c.debts id).minPayment := by
      calc interestOf c bals id = round2 (interestOf c bals id) := hitd.round2_eq.symm
        _ ≤ round2 (findDebt c.debts id).minPayment := round2_mono hile
    have hbound : lookupBal (balsAfter c bals) id - baselineOf c bals id ≤ b := by
      rw [hba, hbase]; linarith
    calc endingOf c bals id
        ≤ round2 (0 ⊔ (lookupBal (balsAfter c bals) id - baselineOf c bals id)) := hmono
      _ ≤ round2 b := round2_mono (max_le (le_of_lt hb) hbound)
      _ = b := h2.round2_eq

theorem coversInv_step {c : MonthCtx} (ds : String) (mn : Nat) {st : SimState}
    (hNK : (keysOf st.balances).Nodup) (hinv : CoversInv c st.balances) :
    CoversInv c (stepMonth c ds mn st).1.balances := by
  intro p hp hppos
  rw [stepMonth_balances] at hp
  obtain ⟨q, hq, he⟩ := List.mem_map.mp hp
  by_cases hqpos : 0 < q.2
  · rw [if_pos hqpos] at he
    obtain ⟨hinv1, hinv2, hinv3⟩ := hinv q hq hqpos
    have hkey : p.1 = q.1 := by rw [← he]
    have hval : p.2 = endingOf c st.balances q.1 := by rw [← he]
    have hle : endingOf c st.balances q.1 ≤ q.2 :=
      endingOf_le_of_covers hNK (by rwa [Prod.mk.eta]) hqpos hinv1 hinv3
    refine ⟨?_, ?_, ?_⟩
    · rw [hval]; exact twoDp_endingOf ..
    · rw [hkey]; exact hinv2
    · rw [hkey, hval]
      calc round2 (endingOf c st.balances q.1 * (findDebt c.debts q.1).apr / 12)
          ≤ round2 (q.2 * (findDebt c.debts q.1).apr / 12) := by
            refine round2_mono ?_
            have := mul_le_mul_of_nonneg_right hle hinv2
            linarith
        _ ≤ (findDebt c.debts q.1).minPayment := hinv3
  · rw [if_neg hqpos] at he
    rw [← he] at hppos ⊢
    exact hinv q hq hppos

theorem simLoop_firstRow_le {c : MonthCtx} {bd : Date} {fuel mn : Nat} {st : SimState}
    (hNK : (keysOf st.balances).Nodup) (hinv : CoversInv c st.balances) :
    ∀ r, (simLoop c bd fuel mn st).1.get? 0 = some r →
      ∀ det ∈ r.debtDetails, det.endingBalance ≤ lookupBal st.balances det.debtId := by
  cases fuel with
  | zero => simp [simLoop]
  | succ fuel =>
    simp only [simLoop]
    split
    · simp
    · intro r hr det hdet
      rw [List.get?_cons_zero, Option.some.injEq] at hr
      rw [← hr, stepMonth_details] at hdet
      obtain ⟨id, hid, rfl⟩ := List.mem_map.mp hdet
      obtain ⟨b, hbmem, hbpos⟩ := mem_activeIdsOf.mp hid
      obtain ⟨h1, _, h3⟩ := hinv (id, b) hbmem hbpos
      show endingOf c st.balances id ≤ lookupBal st.balances id
      rw [lookupBal_eq_of_mem hNK hbmem]
      exact endingOf_le_of_covers hNK hbmem hbpos h1 h3

theorem simLoop_nonincreasing {c : MonthCtx} {bd : Date} {fuel mn : Nat} {st : SimState}
    (hNK : (keysOf st.balances).Nodup) (hinv : CoversInv c st.balances) :
    ∀ i ri rj, (simLoop c bd fuel mn st).1.get? i = some ri →
      (simLoop c bd fuel mn st).1.get? (i + 1) = some rj →
      ∀ di ∈ ri.debtDetails, ∀ dj ∈ rj.debtDetails, di.debtId = dj.debtId →
        dj.endingBalance ≤ di.endingBalance := by
  induction fuel generalizing mn st with
  | zero => simp [simLoop]
  | succ fuel ih =>
    simp only [simLoop]
    split
    · simp
    · intro i ri rj hri hrj di hdi dj hdj hids
      have hNK' : (keysOf (stepMonth c (formatDate (addMonths bd (mn + 1)))
          (mn + 1) st).1.balances).Nodup := by
        rw [keysOf_stepMonth]; exact hNK
      have hinv' := coversInv_step (formatDate (addMonths bd (mn + 1))) (mn + 1) hNK hinv
      cases i with
      | zero =>
        rw [List.get?_cons_zero, Option.some.injEq] at hri
        rw [List.get?_cons_succ] at hrj
        rw [← hri, stepMonth_details] at hdi
        obtain ⟨id, hid, rfl⟩ := List.mem_map.mp hdi
        obtain ⟨b, hbmem, hbpos⟩ := mem_activeIdsOf.mp hid
        have hdi_end : (detailOf c st.balances id).endingBalance
            = lookupBal (stepMonth c (formatDate (addMonths bd (mn + 1)))
                (mn + 1) st).1.balances id := by
          rw [lookupBal_stepMonth_pos hNK hbmem hbpos]
          rfl
        have hfirst := simLoop_firstRow_le hNK' hinv' rj hrj dj hdj
        rw [hdi_end]
        have hidd : (detailOf c st.balances id).debtId = id := rfl
        rw [hidd] at hids
        rw [← hids] at hfirst
        exact hfirst
      | succ i =>
        rw [List.get?_cons_succ] at hri hrj
        exact ih hNK' hinv' i ri rj hri hrj di hdi dj hdj hids

theorem coversInv_initial (c : MonthCtx)
    (hnd : (c.debts.map (·.id)).Nodup)
    (h : ∀ d ∈ c.debts, TwoDp d.balance ∧ 0 ≤ d.apr ∧ checkInterestOnlyRisk d = false) :
    CoversInv c (initialBalances c.debts) := by
  intro p hp hppos
  have hmapnd : ((c.debts.filter isActiveDebt).map (·.id)).Nodup :=
    hnd.sublist ((List.filter_sublist _).map _)
  have heq : initialBalances c.debts
      = (c.debts.filter isActiveDebt).map (fun d => (d.id, d.balance)) := by
    rw [initialBalances,
      foldl_insertEntry_eq_map (fun d => d.balance) _ [] (by simp [keysOf]) hmapnd]
    simp
  rw [heq] at hp
  obtain ⟨d, hd, he⟩ := List.mem_map.mp hp
  have hdmem : d ∈ c.debts := (List.mem_filter.mp hd).1
  have hfind : findDebt c.debts p.1 = d := by
    have hk : p.1 = d.id := by rw [← he]
    rw [hk, findDebt, find?_keyed_eq (fun x => x.id) hnd hdmem, Option.getD_some]
  have hval : p.2 = d.balance := by rw [← he]
  obtain ⟨hb2, hapr, hrisk⟩ := h d hdmem
  have hcov : ¬ (d.minPayment < round2 (d.balance * d.apr / 12)) := by
    intro hc
    rw [checkInterestOnlyRisk] at hrisk
    simp only [calculateMonthlyInterest, decide_eq_false_iff_not] at hrisk
    exact hrisk hc
  rw [hfind, hval]
  exact ⟨hb2, hapr, le_of_not_lt hcov⟩

/-- C7 (amended): for debts with pairwise-distinct ids, two-decimal balances,
nonnegative APRs, and minimum payments covering the initial monthly interest
(`checkInterestOnlyRisk` is false), each debt's `endingBalance` is
non-increasing across consecutive schedule rows.  Reaching a zero balance
within the 480-month cap is not guaranteed (a minimum payment exactly equal
to the monthly interest holds the balance constant forever), and without the
two-decimal restriction on balances even monotonicity can fail. -/
theorem c7_nonincreasing_balances (debts : List Debt) (strategy : Strategy)
    (monthlyBudget : ℚ) (balanceDate : Date)
    (hnd : (debts.map (·.id)).Nodup)
    (h : ∀ d ∈ debts, TwoDp d.balance ∧ 0 ≤ d.apr ∧ checkInterestOnlyRisk d = false) :
    ∀ i ri rj,
      (calculatePayoffSchedule debts strategy monthlyBudget balanceDate).schedule.get? i
        = some ri →
      (calculatePayoffSchedule debts strategy monthlyBudget balanceDate).schedule.get? (i + 1)
        = some rj →
      ∀ di ∈ ri.debtDetails, ∀ dj ∈ rj.debtDetails, di.debtId = dj.debtId →
        dj.endingBalance ≤ di.endingBalance := by
  rw [schedule_eq, simRes]
  exact simLoop_nonincreasing (nodup_keysOf_initialBalances debts)
    (coversInv_initial ⟨debts, strategy, monthlyBudget,
      (getPayoffOrder debts strategy).map (·.id)⟩ hnd h)

/-! ### Claim theorems: C8 no-snowball decoupling -/

theorem extraOf_noSnowball {c : MonthCtx} (hs : c.strategy = Strategy.NO_SNOWBALL)
    (bals : List (String × ℚ)) (id : String) : extraOf c bals id = 0 := by
  have halloc : (allocOf c bals).1 = (activeIdsOf bals).map (fun id => (id, (0 : ℚ))) := by
    rw [allocOf, extraPool0Of, if_pos hs, if_neg (by simp [hs])]
  rw [extraOf, halloc]
  cases halo : alookup ((activeIdsOf bals).map (fun id => (id, (0 : ℚ)))) id with
  | none => rfl
  | some v =>
    have := alookup_mem halo
    obtain ⟨k, _, he⟩ := List.mem_map.mp this
    have : v = 0 := by
      have := congrArg Prod.snd he
      simpa using this.symm
    simp [this]

theorem paymentOf_noSnowball {c : MonthCtx} (hs : c.strategy = Strategy.NO_SNOWBALL)
    (bals : List (String × ℚ)) (id : String) :
    paymentOf c bals id = baselineOf c bals id := by
  rw [paymentOf_eq_add, extraOf_noSnowball hs, add_zero]

theorem stepMonth_snowballExtra_noSnowball {c : MonthCtx}
    (hs : c.strategy = Strategy.NO_SNOWBALL) (ds : String) (mn : Nat) (st : SimState) :
    (stepMonth c ds mn st).2.snowballExtra = 0 := by
  show (activeIdsOf st.balances).foldl
    (fun acc id => round2 (acc + extraOf c st.balances id)) 0 = 0
  refine foldl_preserve (fun q : ℚ => q = 0) rfl ?_
  intro q id hq
  rw [hq, extraOf_noSnowball hs, add_zero, round2_zero]

theorem endingOf_noSnowball {c : MonthCtx} (hs : c.strategy = Strategy.NO_SNOWBALL)
    {bals : List (String × ℚ)} (hNK : (keysOf bals).Nodup) {id : String} {b : ℚ}
    (hmem : (id, b) ∈ bals) (hb : 0 < b) :
    endingOf c bals id
      = minOnlyStep (findDebt c.debts id).apr (findDebt c.debts id).minPayment b := by
  have hba : lookupBal (balsAfter c bals) id = round2 (b + interestOf c bals id) :=
    lookupBal_balsAfter_pos hNK hmem hb
  rw [endingOf, paymentOf_noSnowball hs, baselineOf, hba, interestOf_eq hNK hmem,
    minOnlyStep]

/-- `stepMonth` updates the entry of an active debt to its `minOnlyStep`
value under `NO_SNOWBALL`, and keeps non-positive entries unchanged; in both
cases the id keeps an entry whose value is this month's trajectory step. -/
theorem stepMonth_traj_mem {c : MonthCtx} (hs : c.strategy = Strategy.NO_SNOWBALL)
    (ds : String) (mn : Nat) {st : SimState} (hNK : (keysOf st.balances).Nodup)
    {id : String} {b : ℚ} (hmem : (id, b) ∈ st.balances) :
    (id, if 0 < b then minOnlyStep (findDebt c.debts id).apr
        (findDebt c.debts id).minPayment b
      else b) ∈ (stepMonth c ds mn st).1.balances := by
  rw [stepMonth_balances]
  have himg := List.mem_map_of_mem
    (fun p : String × ℚ => if 0 < p.2 then (p.1, endingOf c st.balances p.1) else p) hmem
  by_cases hb : 0 < b
  · rw [← endingOf_noSnowball hs hNK hmem hb]
    simpa [hb] using himg
  · simpa [hb] using himg

theorem alookup_singleton_ne {α : Type} {k id : String} (h : k ≠ id) (v : α) :
    alookup [(k, v)] id = none := by
  rw [alookup, List.find?_cons_of_neg _ (by simp [h]), List.find?_nil, Option.map_none']

theorem alookup_dates_fold_notmem (F : String → ℚ) (ds : String) {L : List String}
    {init : List (String × String)} {id : String} (h : id ∉ L) :
    alookup (L.foldl (fun acc k =>
        if F k = 0 ∧ alookup acc k = none then acc ++ [(k, ds)] else acc) init) id
      = alookup init id := by
  induction L generalizing init with
  | nil => rfl
  | cons k ks ih =>
    have hk : id ≠ k := fun he => h (he ▸ List.mem_cons_self k ks)
    have hks : id ∉ ks := fun he => h (List.mem_cons_of_mem k he)
    rw [List.foldl_cons, ih hks]
    split
    · rw [alookup_append, alookup_singleton_ne (Ne.symm hk), Option.or_none]
    · rfl

theorem alookup_dates_fold (F : String → ℚ) (ds : String) {L : List String}
    (hL : L.Nodup) (init : List (String × String)) (id : String) :
    alookup (L.foldl (fun acc k =>
        if F k = 0 ∧ alookup acc k = none then acc ++ [(k, ds)] else acc) init) id
      = if id ∈ L ∧ F id = 0 ∧ alookup init id = none then some ds
        else alookup init id := by
  induction L generalizing init with
  | nil => simp
  | cons k ks ih =>
    rw [List.nodup_cons] at hL
    rw [List.foldl_cons]
    by_cases hk : id = k
    · subst hk
      rw [alookup_dates_fold_notmem F ds hL.1]
      by_cases hc : F id = 0 ∧ alookup init id = none
      · rw [if_pos hc, if_pos ⟨List.mem_cons_self id ks, hc⟩, alookup_append,
          hc.2, Option.none_or, alookup, List.find?_cons_of_pos _ (by simp)]
        rfl
      · rw [if_neg hc]
        rw [if_neg (by
          rintro ⟨_, hc2⟩
          exact hc hc2)]
    · have hstep : alookup (if F k = 0 ∧ alookup init k = none
          then init ++ [(k, ds)] else init) id = alookup init id := by
        split
        · rw [alookup_append, alookup_singleton_ne (Ne.symm hk), Option.or_none]
        · rfl
      rw [ih hL.2, hstep]
      exact if_congr (by simp [List.mem_cons, hk]) rfl rfl

theorem stepMonth_dates {c : MonthCtx} {ds : String} {mn : Nat} {st : SimState}
    (hNK : (keysOf st.balances).Nodup) (id : String) :
    alookup (stepMonth c ds mn st).1.payoffDatePerDebt id
      = if id ∈ activeIdsOf st.balances ∧ endingOf c st.balances id = 0 ∧
            alookup st.payoffDatePerDebt id = none
        then some ds else alookup st.payoffDatePerDebt id := by
  show alookup ((activeIdsOf st.balances).foldl
    (fun acc k => if endingOf c st.balances k = 0 ∧ alookup acc k = none
      then acc ++ [(k, ds)] else acc) st.payoffDatePerDebt) id = _
  exact alookup_dates_fold (endingOf c st.balances) ds (nodup_activeIdsOf hNK) _ id

theorem simLoop_dates_preserved (c : MonthCtx) (bd : Date) (fuel mn : Nat) {st : SimState}
    (hNK : (keysOf st.balances).Nodup) {id : String} {s : String}
    (h : alookup st.payoffDatePerDebt id = some s) :
    alookup (simLoop c bd fuel mn st).2.1.payoffDatePerDebt id = some s := by
  induction fuel generalizing mn st with
  | zero => exact h
  | succ fuel ih =>
    simp only [simLoop]
    split
    · exact h
    · refine ih (mn + 1) (by rw [keysOf_stepMonth]; exact hNK) ?_
      rw [stepMonth_dates hNK, if_neg (by
        rintro ⟨_, _, hc⟩
        rw [h] at hc
        cases hc)]
      exact h

theorem minOnlyStep_nonneg (apr mp b : ℚ) : 0 ≤ minOnlyStep apr mp b := by
  simp only [minOnlyStep]
  exact round2_nonneg (le_max_left 0 _)

theorem minOnlyTraj_nonneg (apr mp : ℚ) :
    ∀ (m : Nat) {b : ℚ}, 0 ≤ b → 0 ≤ minOnlyTraj apr mp b m := by
  intro m
  induction m with
  | zero => intro b hb; exact hb
  | succ m ih =>
    intro b hb
    show 0 ≤ minOnlyTraj apr mp (if 0 < b then minOnlyStep apr mp b else b) m
    apply ih
    split
    · exact minOnlyStep_nonneg ..
    · exact hb

theorem minOnlyTraj_shift (apr mp b : ℚ) (k : Nat) :
    minOnlyTraj apr mp b (k + 1) = minOnlyTraj apr mp (minOnlyTraj apr mp b 1) k := rfl

theorem range'_succ_map (s n : Nat) :
    List.range' (s + 1) n = (List.range' s n).map (· + 1) := by
  induction n generalizing s with
  | zero => rfl
  | succ n ih =>
    rw [List.range'_succ, List.range'_succ, List.map_cons, ih (s + 1)]

theorem firstPayoffMonth_extend {apr mp b : ℚ} {R M : Nat} (h : R ≤ M) {k : Nat}
    (hf : firstPayoffMonth apr mp b R = some k) :
    firstPayoffMonth apr mp b M = some k := by
  rw [firstPayoffMonth] at hf ⊢
  have ha := List.range'_append 1 R (M - R) 1
  rw [one_mul] at ha
  have hsplit : List.range' 1 M = List.range' 1 R ++ List.range' (1 + R) (M - R) := by
    calc List.range' 1 M = List.range' 1 (M - R + R) := by rw [Nat.sub_add_cancel h]
      _ = List.range' 1 R ++ List.range' (1 + R) (M - R) := ha.symm
  rw [hsplit, List.find?_append, hf]
  exact rfl

theorem firstPayoffMonth_isSome {apr mp b : ℚ} {R : Nat} (h1 : 1 ≤ R)
    (hz : minOnlyTraj apr mp b R = 0) :
    ∃ k, firstPayoffMonth apr mp b R = some k := by
  rw [firstPayoffMonth]
  have hmem : R ∈ List.range' 1 R := by
    rw [List.mem_range'_1]
    omega
  rcases hf : (List.range' 1 R).find?
      (fun k => decide (minOnlyTraj apr mp b k = 0)) with _ | ⟨k⟩
  · rw [List.find?_eq_none] at hf
    exact absurd (by simp [hz]) (hf R hmem)
  · exact ⟨k, rfl⟩

theorem firstPayoffMonth_none_of_le {apr mp b : ℚ} {R M : Nat} (h : R ≤ M)
    (hf : firstPayoffMonth apr mp b M = none) :
    firstPayoffMonth apr mp b R = none := by
  rw [firstPayoffMonth, List.find?_eq_none] at hf ⊢
  intro x hx
  apply hf
  rw [List.mem_range'_1] at hx ⊢
  omega

theorem firstPayoffMonth_shift (apr mp b : ℚ) (len : Nat)
    (h1 : minOnlyTraj apr mp b 1 ≠ 0) :
    firstPayoffMonth apr mp b (len + 1)
      = (firstPayoffMonth apr mp (minOnlyTraj apr mp b 1) len).map (fun k => k + 1) := by
  rw [firstPayoffMonth, firstPayoffMonth, List.range'_succ,
    List.find?_cons_of_neg _ (by simpa using h1), range'_succ_map 1 len, List.find?_map]
  congr 1

/-- Under `NO_SNOWBALL`, each id's working balance after the whole run is its
own minimum-only trajectory evaluated at the number of rows produced. -/
theorem simLoop_balance_traj {c : MonthCtx} {bd : Date}
    (hs : c.strategy = Strategy.NO_SNOWBALL) {fuel mn : Nat} {st : SimState}
    (hNK : (keysOf st.balances).Nodup) {id : String} {b : ℚ}
    (hmem : (id, b) ∈ st.balances) :
    (id, minOnlyTraj (findDebt c.debts id).apr (findDebt c.debts id).minPayment b
        (simLoop c bd fuel mn st).1.length) ∈ (simLoop c bd fuel mn st).2.1.balances := by
  induction fuel generalizing mn st b with
  | zero => simpa [simLoop, minOnlyTraj] using hmem
  | succ fuel ih =>
    simp only [simLoop]
    split
    · simpa [minOnlyTraj] using hmem
    · have hNK' : (keysOf (stepMonth c (formatDate (addMonths bd (mn + 1)))
          (mn + 1) st).1.balances).Nodup := by
        rw [keysOf_stepMonth]; exact hNK
      have hmem' := stepMonth_traj_mem hs (formatDate (addMonths bd (mn + 1))) (mn + 1)
        hNK hmem
      simp only [List.length_cons]
      exact ih hNK' hmem'

/-- Under `NO_SNOWBALL`, the recorded payoff date of an active debt is
determined by its own minimum-only trajectory: it is the date of the first
month within the produced schedule at which the trajectory reaches 0. -/
theorem simLoop_payoff_date {c : MonthCtx} {bd : Date}
    (hs : c.strategy = Strategy.NO_SNOWBALL) {fuel mn : Nat} {st : SimState}
    (hNK : (keysOf st.balances).Nodup) {id : String} {b : ℚ}
    (hmem : (id, b) ∈ st.balances) (hb : 0 < b)
    (hnone : alookup st.payoffDatePerDebt id = none) :
    alookup (simLoop c bd fuel mn st).2.1.payoffDatePerDebt id
      = (firstPayoffMonth (findDebt c.debts id).apr (findDebt c.debts id).minPayment b
          (simLoop c bd fuel mn st).1.length).map
            (fun k => formatDate (addMonths bd (mn + k))) := by
  induction fuel generalizing mn st b with
  | zero => simpa [simLoop, firstPayoffMonth] using hnone
  | succ fuel ih =>
    simp only [simLoop]
    split
    · next hempty =>
      exfalso
      have : id ∈ activeIdsOf st.balances := mem_activeIdsOf.mpr ⟨b, hmem, hb⟩
      rw [List.isEmpty_iff] at hempty
      rw [hempty] at this
      cases this
    · have hNK' : (keysOf (stepMonth c (formatDate (addMonths bd (mn + 1)))
          (mn + 1) st).1.balances).Nodup := by
        rw [keysOf_stepMonth]; exact hNK
      have hend : endingOf c st.balances id
          = minOnlyStep (findDebt c.debts id).apr (findDebt c.debts id).minPayment b :=
        endingOf_noSnowball hs hNK hmem hb
      have hmemA : id ∈ activeIdsOf st.balances := mem_activeIdsOf.mpr ⟨b, hmem, hb⟩
      have htraj1 : minOnlyTraj (findDebt c.debts id).apr (findDebt c.debts id).minPayment b 1
          = minOnlyStep (findDebt c.debts id).apr (findDebt c.debts id).minPayment b := by
        show (if 0 < b then _ else b) = _
        rw [if_pos hb]
      have hmem' : (id, minOnlyStep (findDebt c.debts id).apr
          (findDebt c.debts id).minPayment b)
          ∈ (stepMonth c (formatDate (addMonths bd (mn + 1))) (mn + 1) st).1.balances := by
        have := stepMonth_traj_mem hs (formatDate (addMonths bd (mn + 1))) (mn + 1) hNK hmem
        rwa [if_pos hb] at this
      by_cases hz : minOnlyStep (findDebt c.debts id).apr
          (findDebt c.debts id).minPayment b = 0
      · have hset : alookup (stepMonth c (formatDate (addMonths bd (mn + 1)))
            (mn + 1) st).1.payoffDatePerDebt id
            = some (formatDate (addMonths bd (mn + 1))) := by
          rw [stepMonth_dates hNK, if_pos ⟨hmemA, by rw [hend]; exact hz, hnone⟩]
        have hpres := simLoop_dates_preserved c bd fuel (mn + 1) hNK' hset
        rw [hpres]
        simp only [List.length_cons]
        have hfpm : firstPayoffMonth (findDebt c.debts id).apr
            (findDebt c.debts id).minPayment b
            ((simLoop c bd fuel (mn + 1) (stepMonth c (formatDate (addMonths bd (mn + 1)))
              (mn + 1) st).1).1.length + 1) = some 1 := by
          rw [firstPayoffMonth, List.range'_succ, List.find?_cons_of_pos _ (by
            rw [htraj1]
            simp [hz])]
        rw [hfpm]
        rfl
      · have hpos : 0 < minOnlyStep (findDebt c.debts id).apr
            (findDebt c.debts id).minPayment b :=
          lt_of_le_of_ne (minOnlyStep_nonneg ..) (Ne.symm hz)
        have hnone' : alookup (stepMonth c (formatDate (addMonths bd (mn + 1)))
            (mn + 1) st).1.payoffDatePerDebt id = none := by
          rw [stepMonth_dates hNK, if_neg (by
            rintro ⟨_, hc, _⟩
            rw [hend] at hc
            exact hz hc)]
          exact hnone
        rw [ih hNK' hmem' hpos hnone']
        simp only [List.length_cons]
        rw [firstPayoffMonth_shift _ _ _ _ (by rw [htraj1]; exact hz), htraj1,
          Option.map_map]
        congr 1
        funext k
        simp only [Function.comp]
        have hk : mn + 1 + k = mn + (k + 1) := by omega
        rw [hk]

theorem simLoop_snowball_zero {c : MonthCtx} {bd : Date}
    (hs : c.strategy = Strategy.NO_SNOWBALL) (fuel mn : Nat) (st : SimState) :
    ∀ row ∈ (simLoop c bd fuel mn st).1, row.snowballExtra = 0 := by
  induction fuel generalizing mn st with
  | zero => simp [simLoop]
  | succ fuel ih =>
    simp only [simLoop]
    split
    · simp
    · intro row hrow
      rcases List.mem_cons.mp hrow with heq | hrow'
      · rw [heq]
        exact stepMonth_snowballExtra_noSnowball hs ..
      · exact ih _ _ row hrow'

theorem simLoop_payment_baseline {c : MonthCtx} {bd : Date}
    (hs : c.strategy = Strategy.NO_SNOWBALL) (fuel mn : Nat) (st : SimState)
    (hNK : (keysOf st.balances).Nodup) :
    ∀ row ∈ (simLoop c bd fuel mn st).1, ∀ det ∈ row.debtDetails,
      det.payment = round2 (min (findDebt c.debts det.debtId).minPayment
        (det.startingBalance + det.interest)) := by
  induction fuel generalizing mn st with
  | zero => simp [simLoop]
  | succ fuel ih =>
    simp only [simLoop]
    split
    · simp
    · intro row hrow det hdet
      rcases List.mem_cons.mp hrow with heq | hrow'
      · rw [heq, stepMonth_details] at hdet
        obtain ⟨id, hid, rfl⟩ := List.mem_map.mp hdet
        obtain ⟨b, hbmem, hbpos⟩ := mem_activeIdsOf.mp hid
        have hba : TwoDp (lookupBal (balsAfter c st.balances) id) :=
          twoDp_lookupBal_balsAfter hNK hbmem hbpos
        have hstar := detailOf_starting_add_interest hba
        show paymentOf c st.balances id = _
        rw [paymentOf_noSnowball hs, baselineOf]
        have hidd : (detailOf c st.balances id).debtId = id := rfl
        rw [hidd, hstar]
      · exact ih _ _ (by rw [keysOf_stepMonth]; exact hNK) row hrow' det hdet

theorem initialBalances_mem {debts : List Debt} (hnd : (debts.map (·.id)).Nodup)
    {d : Debt} (hd : d ∈ debts) (ha : isActiveDebt d = true) :
    (d.id, d.balance) ∈ initialBalances debts := by
  have hmapnd : ((debts.filter isActiveDebt).map (·.id)).Nodup :=
    hnd.sublist ((List.filter_sublist _).map _)
  rw [initialBalances,
    foldl_insertEntry_eq_map (fun d => d.balance) _ [] (by simp [keysOf]) hmapnd]
  simp only [List.nil_append]
  exact List.mem_map_of_mem _ (List.mem_filter.mpr ⟨hd, ha⟩)

theorem findDebt_eq_of_nodup {debts : List Debt} (hnd : (debts.map (·.id)).Nodup)
    {d : Debt} (hd : d ∈ debts) : findDebt debts d.id = d := by
  rw [findDebt, find?_keyed_eq (fun x => x.id) hnd hd, Option.getD_some]

/-- The first-payoff month computed over the actual number of produced rows
agrees with the one computed over the full 480-month horizon. -/
theorem firstPayoffMonth_run {c : MonthCtx} {bd : Date}
    (hs : c.strategy = Strategy.NO_SNOWBALL) {st : SimState}
    (hNK : (keysOf st.balances).Nodup) {id : String} {b : ℚ}
    (hmem : (id, b) ∈ st.balances) (hb : 0 < b) :
    firstPayoffMonth (findDebt c.debts id).apr (findDebt c.debts id).minPayment b
        (simLoop c bd MAX_MONTHS 0 st).1.length
      = firstPayoffMonth (findDebt c.debts id).apr (findDebt c.debts id).minPayment b
          MAX_MONTHS := by
  have hR : (simLoop c bd MAX_MONTHS 0 st).1.length ≤ MAX_MONTHS := simLoop_length_le ..
  rcases eq_or_lt_of_le hR with heq | hlt
  · rw [heq]
  · have hfin := simLoop_final_inactive hlt
    have htraj : (id, minOnlyTraj (findDebt c.debts id).apr (findDebt c.debts id).minPayment b
        (simLoop c bd MAX_MONTHS 0 st).1.length) ∈ (simLoop c bd MAX_MONTHS 0 st).2.1.balances :=
      simLoop_balance_traj hs hNK hmem
    have hle : ¬ 0 < minOnlyTraj (findDebt c.debts id).apr (findDebt c.debts id).minPayment b
        (simLoop c bd MAX_MONTHS 0 st).1.length := hfin _ htraj
    have hge : 0 ≤ minOnlyTraj (findDebt c.debts id).apr (findDebt c.debts id).minPayment b
        (simLoop c bd MAX_MONTHS 0 st).1.length :=
      minOnlyTraj_nonneg _ _ _ (le_of_lt hb)
    have hz := le_antisymm (le_of_not_lt hle) hge
    have hne : (simLoop c bd MAX_MONTHS 0 st).1 ≠ [] := by
      refine simLoop_ne_nil (fun h0 => ?_) (by norm_num [MAX_MONTHS])
      have hin : id ∈ activeIdsOf st.balances := mem_activeIdsOf.mpr ⟨b, hmem, hb⟩
      rw [h0] at hin
      cases hin
    have hR1 : 1 ≤ (simLoop c bd MAX_MONTHS 0 st).1.length := by
      rcases Nat.eq_zero_or_pos (simLoop c bd MAX_MONTHS 0 st).1.length with h0 | h1
      · exact absurd (List.length_eq_zero.mp h0) hne
      · exact h1
    obtain ⟨k, hk⟩ := firstPayoffMonth_isSome hR1 hz
    rw [hk, firstPayoffMonth_extend hR hk]

/-- Under `NO_SNOWBALL` an active debt's recorded payoff date is the date of
the first month, within the full 480-month horizon, at which its own
minimum-only trajectory reaches zero — independent of the other debts. -/
theorem payoffDate_noSnowball_char (debts : List Debt) (monthlyBudget : ℚ)
    (balanceDate : Date) (hnd : (debts.map (·.id)).Nodup) {d : Debt} (hd : d ∈ debts)
    (hact : d.active = true) (hbal : 0 < d.balance) :
    alookup (calculatePayoffSchedule debts Strategy.NO_SNOWBALL monthlyBudget
        balanceDate).payoffDatePerDebt d.id
      = (firstPayoffMonth d.apr d.minPayment d.balance MAX_MONTHS).map
          (fun k => formatDate (addMonths balanceDate (0 + k))) := by
  have hadebt : isActiveDebt d = true := by simp [isActiveDebt, hact, hbal]
  have hmem := initialBalances_mem hnd hd hadebt
  have hNK := nodup_keysOf_initialBalances debts
  have hfind := findDebt_eq_of_nodup hnd hd
  rw [payoffDatePerDebt_eq, simRes]
  have hnone : alookup ((⟨initialBalances debts, 0, []⟩ : SimState)).payoffDatePerDebt d.id
      = none := rfl
  rw [simLoop_payoff_date rfl hNK hmem hbal hnone]
  rw [firstPayoffMonth_run rfl hNK hmem hbal]
  show (firstPayoffMonth (findDebt debts d.id).apr (findDebt debts d.id).minPayment
      d.balance MAX_MONTHS).map (fun k => formatDate (addMonths balanceDate (0 + k))) = _
  rw [hfind]

/-- C8 (amended): under `NO_SNOWBALL` no schedule row carries any snowball
extra; every per-debt payment is `round2` of the minimum payment capped at
the balance after interest (for minimum payments that are not two-decimal
amounts this differs from the raw `min`, which the code rounds); and, for
debts with pairwise-distinct ids, each active debt's recorded payoff date in
the joint simulation equals its payoff date when simulated alone under
`NO_SNOWBALL`. -/
theorem c8_no_snowball_decoupling (debts : List Debt) (monthlyBudget : ℚ)
    (balanceDate : Date) (hnd : (debts.map (·.id)).Nodup) {d : Debt} (hd : d ∈ debts)
    (hact : d.active = true) (hbal : 0 < d.balance) :
    (∀ row ∈ (calculatePayoffSchedule debts Strategy.NO_SNOWBALL monthlyBudget
        balanceDate).schedule, row.snowballExtra = 0) ∧
    (∀ row ∈ (calculatePayoffSchedule debts Strategy.NO_SNOWBALL monthlyBudget
        balanceDate).schedule, ∀ det ∈ row.debtDetails,
      det.payment = round2 (min (findDebt debts det.debtId).minPayment
        (det.startingBalance + det.interest))) ∧
    alookup (calculatePayoffSchedule debts Strategy.NO_SNOWBALL monthlyBudget
        balanceDate).payoffDatePerDebt d.id
      = alookup (calculatePayoffSchedule [d] Strategy.NO_SNOWBALL monthlyBudget
          balanceDate).payoffDatePerDebt d.id := by
  have hNK₁ := nodup_keysOf_initialBalances debts
  refine ⟨?_, ?_, ?_⟩
  · rw [schedule_eq, simRes]
    exact fun row hrow => simLoop_snowball_zero rfl _ _ _ row hrow
  · rw [schedule_eq, simRes]
    intro row hrow det hdet
    have := simLoop_payment_baseline rfl MAX_MONTHS 0 ⟨initialBalances debts, 0, []⟩
      hNK₁ row hrow det hdet
    rwa [show (⟨debts, Strategy.NO_SNOWBALL, monthlyBudget,
      (getPayoffOrder debts Strategy.NO_SNOWBALL).map (·.id)⟩ : MonthCtx).debts
        = debts from rfl] at this
  · rw [payoffDate_noSnowball_char debts monthlyBudget balanceDate hnd hd hact hbal,
      payoffDate_noSnowball_char [d] monthlyBudget balanceDate (by simp)
        (List.mem_cons_self d []) hact hbal]

/-! ### Concrete evaluation: scenario claims, counterexamples and witnesses.
The rational arithmetic and sorting primitives are restored to their normal
reducibility here so that `decide` can evaluate the simulator. -/

section ConcreteEvaluation

set_option maxRecDepth 100000

attribute [local semireducible] Rat.add Rat.mul Rat.sub Rat.inv Rat.ofScientific
  List.mergeSort List.merge

/-- C6: `checkInterestOnlyRisk` is true exactly when the minimum payment is
below the monthly interest rounded to two decimals before the comparison;
in particular it fires for balance 10000, APR 0.24, minimum payment 150
(monthly interest 200). -/
theorem c6_interest_only_risk :
    (∀ d : Debt, checkInterestOnlyRisk d = true
      ↔ d.minPayment < round2 (d.balance * d.apr / 12)) ∧
    checkInterestOnlyRisk debtRisky = true := by
  constructor
  · intro d
    simp [checkInterestOnlyRisk, calculateMonthlyInterest]
  · decide

/-- C9: Scenario B.  With debt A (100, APR 0, min 50) entered before debt B
(500, APR 0, min 25), budget 100 and lowest-balance snowball: month 1 pays A
75 (ending 25) and B 25 (ending 475) with snowball extra 25; month 2 pays A
25 (ending 0, payoff date recorded for that month) and B 75 with the full
surplus of 50 as snowball extra; the payoff order is [A, B]. -/
theorem c9_scenario_b :
    (calculatePayoffSchedule [debtA, debtB] Strategy.SNOWBALL_LOWEST_BALANCE 100
        sampleDate).payoffOrder = ["A", "B"] ∧
    ((calculatePayoffSchedule [debtA, debtB] Strategy.SNOWBALL_LOWEST_BALANCE 100
        sampleDate).schedule.get? 0).map (fun r => (r.snowballExtra,
          r.debtDetails.map fun det => (det.debtId, det.payment, det.endingBalance)))
      = some (25, [("A", 75, 25), ("B", 25, 475)]) ∧
    ((calculatePayoffSchedule [debtA, debtB] Strategy.SNOWBALL_LOWEST_BALANCE 100
        sampleDate).schedule.get? 1).map (fun r => (r.snowballExtra,
          r.debtDetails.map fun det => (det.debtId, det.payment, det.endingBalance)))
      = some (50, [("A", 25, 0), ("B", 75, 400)]) ∧
    alookup (calculatePayoffSchedule [debtA, debtB] Strategy.SNOWBALL_LOWEST_BALANCE 100
        sampleDate).payoffDatePerDebt "A" = some (formatDate (addMonths sampleDate 2)) := by
  refine ⟨by decide, by decide, by decide, by decide⟩

/-- C1 is false as stated: under `CUSTOM_HIGHEST_FIRST` the debt without a
`customRank` (substituted by `MAX_SAFE_INTEGER`) sorts before the ranked
debt, not after it. -/
theorem c1_counterexample :
    ¬ rankedBeforeUnranked (getPayoffOrder [debtRanked, debtUnranked]
        Strategy.CUSTOM_HIGHEST_FIRST) := by
  rw [rankedBeforeUnranked]
  decide

theorem c1_witness :
    rankedBeforeUnranked (getPayoffOrder [debtRanked, debtUnranked]
        Strategy.CUSTOM_LOWEST_FIRST) ∧
    unrankedBeforeRanked (getPayoffOrder [debtRanked, debtUnranked]
        Strategy.CUSTOM_HIGHEST_FIRST) :=
  c1_custom_rank_amended [debtRanked, debtUnranked] (by
    intro d hd r hr
    rcases List.mem_cons.mp hd with rfl | hd'
    · rw [show debtRanked.customRank = some 5 from rfl, Option.some.injEq] at hr
      rw [← hr]
      decide
    · rcases List.mem_cons.mp hd' with rfl | hd''
      · rw [show debtUnranked.customRank = none from rfl] at hr
        exact Option.noConfusion hr
      · cases hd'')

theorem c2_witness :
    (calculatePayoffSchedule [debtSimple] Strategy.ORDER_ENTERED 10
        sampleDate).schedule.length < 480 ∧
    (calculatePayoffSchedule [debtSimple] Strategy.ORDER_ENTERED 10
        sampleDate).payoffDate = "2024-02-15" := by
  refine ⟨by decide, ?_⟩
  obtain ⟨-, -, -, -, -, -, -, h8⟩ :=
    c2_termination_and_result [debtSimple] Strategy.ORDER_ENTERED 10 sampleDate
  rw [h8 ⟨1, "2024-02-15", 10, 10, 0, [⟨"w", "Simple", 10, 0, 10, 0⟩], 0⟩ (by decide)]

theorem c3_witness :
    (⟨1, "2024-02-15", 10, 10, 0, [⟨"w", "Simple", 10, 0, 10, 0⟩], 0⟩ : MonthlyScheduleRow)
      ∈ (calculatePayoffSchedule [debtSimple] Strategy.ORDER_ENTERED 10 sampleDate).schedule ∧
    (⟨1, "2024-02-15", 10, 10, 0, [⟨"w", "Simple", 10, 0, 10, 0⟩], 0⟩ :
        MonthlyScheduleRow).totalRemainingBalance
      = round2 ((((⟨1, "2024-02-15", 10, 10, 0, [⟨"w", "Simple", 10, 0, 10, 0⟩], 0⟩ :
          MonthlyScheduleRow)).debtDetails.map (·.endingBalance)).sum) :=
  ⟨by decide, c3_balance_conservation [debtSimple] Strategy.ORDER_ENTERED 10 sampleDate _
    (by decide)⟩

theorem c4_witness :
    [debtRanked, debtUnranked].Sublist
      (getPayoffOrder [debtRanked, debtUnranked] Strategy.SNOWBALL_LOWEST_BALANCE) := by
  obtain ⟨-, -, -, -, -, h6, -, -, -⟩ := c4_get_payoff_order [debtRanked, debtUnranked]
  refine h6 debtRanked debtUnranked rfl ?_
  rw [show List.filter isActiveDebt [debtRanked, debtUnranked]
    = [debtRanked, debtUnranked] from by decide]

theorem c5_witness :
    (validateMonthlyBudget 10 [debtA]).valid = false ∧
    (validateMonthlyBudget 10 [debtA]).message
      = some "Need to increase monthly payment by $40.00 to cover minimum payments." := by
  refine ⟨by decide, ?_⟩
  obtain ⟨-, -, h3⟩ := c5_validate_monthly_budget 10 [debtA]
  rw [h3 (by decide)]
  decide

/-- C7 is false as stated: with balance 12.0576, APR 1 and minimum payment 1
(which covers the initial monthly interest of 1.00, so
`checkInterestOnlyRisk` is false), the rounded balance 12.06 after month 1
accrues interest 1.01 in month 2, so the ending balance rises from 12.06 to
12.07 — consecutive rows are not non-increasing (and the debt can never
reach 0 within the 480-month cap). -/
theorem c7_counterexample :
    (∀ d ∈ [debtGrowing], checkInterestOnlyRisk d = false) ∧
    ¬ (∀ i ri rj,
        (calculatePayoffSchedule [debtGrowing] Strategy.NO_SNOWBALL 1
          sampleDate).schedule.get? i = some ri →
        (calculatePayoffSchedule [debtGrowing] Strategy.NO_SNOWBALL 1
          sampleDate).schedule.get? (i + 1) = some rj →
        ∀ di ∈ ri.debtDetails, ∀ dj ∈ rj.debtDetails, di.debtId = dj.debtId →
          dj.endingBalance ≤ di.endingBalance) := by
  refine ⟨by decide, fun h => ?_⟩
  have h1 := h 0
    ⟨1, "2024-02-15", 1, 1, 0, [⟨"c", "Growing", 603 / 50, 1, 1, 603 / 50⟩], 603 / 50⟩
    ⟨2, "2024-03-15", 1, 1, 0,
      [⟨"c", "Growing", 603 / 50, 101 / 100, 1, 1207 / 100⟩], 1207 / 100⟩
    (by decide) (by decide)
    ⟨"c", "Growing", 603 / 50, 1, 1, 603 / 50⟩ (by decide)
    ⟨"c", "Growing", 603 / 50, 101 / 100, 1, 1207 / 100⟩ (by decide) rfl
  exact absurd h1 (by decide)

theorem c7_witness :
    (([debtA, debtB].map (·.id)).Nodup) ∧
    (∀ d ∈ [debtA, debtB], TwoDp d.balance ∧ 0 ≤ d.apr ∧ checkInterestOnlyRisk d = false) ∧
    ((400 : ℚ) ≤ 475) := by
  have hyp : ∀ d ∈ [debtA, debtB],
      TwoDp d.balance ∧ 0 ≤ d.apr ∧ checkInterestOnlyRisk d = false := by
    intro d hd
    rcases List.mem_cons.mp hd with rfl | hd'
    · exact ⟨⟨10000, by norm_num [debtA]⟩, le_refl 0, by decide⟩
    · rcases List.mem_cons.mp hd' with rfl | h0
      · exact ⟨⟨50000, by norm_num [debtB]⟩, le_refl 0, by decide⟩
      · cases h0
  refine ⟨by decide, hyp, ?_⟩
  exact c7_nonincreasing_balances [debtA, debtB] Strategy.SNOWBALL_LOWEST_BALANCE 100
    sampleDate (by decide) hyp 0
    ⟨1, "2024-02-15", 100, 75, 25,
      [⟨"A", "Debt A", 100, 0, 75, 25⟩, ⟨"B", "Debt B", 500, 0, 25, 475⟩], 500⟩
    ⟨2, "2024-03-15", 100, 50, 50,
      [⟨"A", "Debt A", 25, 0, 25, 0⟩, ⟨"B", "Debt B", 475, 0, 75, 400⟩], 400⟩
    (by decide) (by decide)
    ⟨"B", "Debt B", 500, 0, 25, 475⟩ (by decide)
    ⟨"B", "Debt B", 475, 0, 75, 400⟩ (by decide) rfl

/-- C8 is false as stated: with a minimum payment of 0.005 on a balance of
10, the month's payment is `round2(min(0.005, 10)) = 0.01`, not
`min(0.005, 10) = 0.005` — the baseline is rounded before being applied. -/
theorem c8_counterexample :
    ¬ (∀ row ∈ (calculatePayoffSchedule [debtTinyMin] Strategy.NO_SNOWBALL 1
          sampleDate).schedule,
        ∀ det ∈ row.debtDetails,
          det.payment = min (findDebt [debtTinyMin] det.debtId).minPayment
            (det.startingBalance + det.interest)) := by
  intro h
  have hr : (calculatePayoffSchedule [debtTinyMin] Strategy.NO_SNOWBALL 1
      sampleDate).schedule.get? 0
      = some ⟨1, "2024-02-15", 1 / 100, 1 / 100, 0,
          [⟨"x", "Tiny", 10, 0, 1 / 100, 999 / 100⟩], 999 / 100⟩ := by decide
  have h1 := h _ (List.get?_mem hr) ⟨"x", "Tiny", 10, 0, 1 / 100, 999 / 100⟩ (by decide)
  exact absurd h1 (by decide)

theorem c8_witness :
    alookup (calculatePayoffSchedule [debtA, debtB] Strategy.NO_SNOWBALL 100
        sampleDate).payoffDatePerDebt "A"
      = alookup (calculatePayoffSchedule [debtA] Strategy.NO_SNOWBALL 100
          sampleDate).payoffDatePerDebt "A" :=
  (c8_no_snowball_decoupling [debtA, debtB] 100 sampleDate (by decide)
    (List.mem_cons_self debtA [debtB]) rfl (by decide)).2.2

theorem c10_witness :
    (∀ d ∈ [debtA, debtB], TwoDp d.balance ∧ TwoDp d.minPayment) ∧
    ((75 : ℚ) ≤ 100 + 0 ∧ (25 : ℚ) = round2 (100 + 0 - 75) ∧ (25 : ℚ) = 100 + 0 - 75) := by
  have hyp : ∀ d ∈ [debtA, debtB], TwoDp d.balance ∧ TwoDp d.minPayment := by
    intro d hd
    rcases List.mem_cons.mp hd with rfl | hd'
    · exact ⟨⟨10000, by norm_num [debtA]⟩, ⟨5000, by norm_num [debtA]⟩⟩
    · rcases List.mem_cons.mp hd' with rfl | h0
      · exact ⟨⟨50000, by norm_num [debtB]⟩, ⟨2500, by norm_num [debtB]⟩⟩
      · cases h0
  refine ⟨hyp, ?_⟩
  have hr : (calculatePayoffSchedule [debtA, debtB] Strategy.SNOWBALL_LOWEST_BALANCE 100
      sampleDate).schedule.get? 0
      = some ⟨1, "2024-02-15", 100, 75, 25,
          [⟨"A", "Debt A", 100, 0, 75, 25⟩, ⟨"B", "Debt B", 500, 0, 25, 475⟩], 500⟩ := by
    decide
  exact c10_no_overpayment [debtA, debtB] Strategy.SNOWBALL_LOWEST_BALANCE 100 sampleDate hyp
    _ (List.get?_mem hr) ⟨"A", "Debt A", 100, 0, 75, 25⟩ (by decide)

end ConcreteEvaluation

end DebtPlanner
